import Mathlib

/-!
Verification of the subtitle timeline engine of the video-dubbing repository.

The Python source is shallowly embedded: strings become `List Char`, Python
floats become `ℚ`, fallible code (code that can raise) returns `Option`.
The Unicode category lookup `unicodedata.category` is an oracle parameter
`category : Char → String`; every algorithm of the source depends on a
character only through its category string.
-/

/-- Category names treated as word separators by utils.py
(spaces, control characters and punctuation other than connector/dash). -/
def SPACE : List String := ["Zs", "Cc", "Po", "Ps", "Pe", "Pi", "Pf"]

/-- Category names treated as word-forming by utils.py
(letters, digits, connector and dash punctuation). -/
def LETTER : List String := ["Ll", "Lu", "Nd", "Nl", "No", "Pc", "Pd"]

/-- Python index normalization: a negative index gets the length added once. -/
def pyNormIdx (n : Nat) (i : Int) : Int :=
  if i < 0 then i + n else i

/-- Clamped index used by Python slice semantics. -/
def pyIdx (n : Nat) (i : Int) : Nat :=
  if i < 0 then ((n : Int) + i).toNat else min i.toNat n

/-- Python slice `s[a:b]` (step 1); `b = none` means to the end. -/
def pySlice (s : List Char) (a : Int) (b : Option Int) : List Char :=
  let lo := pyIdx s.length a
  let hi := (b.map (pyIdx s.length)).getD s.length
  (s.take hi).drop lo

/-- Python single-character indexing `s[i]`; `none` models an IndexError. -/
def pyGet (s : List Char) (i : Int) : Option Char :=
  let j := if i < 0 then (s.length : Int) + i else i
  if h : 0 ≤ j ∧ j < s.length then some (s.get ⟨j.toNat, by omega⟩) else none

/-- Number of characters that do not count towards the hybrid length
(separators and word-internal word-forming characters); the skip counter
of `len_hybrid` in utils.py. -/
def lenHybridSkip (category : Char → String) : Bool → List Char → Nat
  | _, [] => 0
  | in_word, c :: cs =>
    if category c ∈ SPACE then 1 + lenHybridSkip category false cs
    else if category c ∈ LETTER then
      (if in_word then 1 else 0) + lenHybridSkip category true cs
    else lenHybridSkip category false cs

/-- Embeds utils.len_hybrid: length in word units of mixed-script text. -/
def len_hybrid (category : Char → String) (s : List Char) : Nat :=
  s.length - lenHybridSkip category false s

/-- Direct unit counter: a separator counts 0, a word-forming character counts
1 when it opens a word and 0 inside a word, any other character counts 1. -/
def lenHybridAux (category : Char → String) : Bool → List Char → Nat
  | _, [] => 0
  | in_word, c :: cs =>
    if category c ∈ SPACE then lenHybridAux category false cs
    else if category c ∈ LETTER then
      (if in_word then 0 else 1) + lenHybridAux category true cs
    else 1 + lenHybridAux category false cs

/-- The advance-the-start loop of utils.sub_hybrid: starting inside the slice
`s[start:]`, separators and word-internal word-forming characters push the
start index forward. -/
def advanceStart (category : Char → String) : List Char → Int → Bool → Int
  | [], start, _ => start
  | c :: cs, start, in_word =>
    if category c ∈ SPACE then advanceStart category cs (start + 1) false
    else if category c ∈ LETTER then
      (if in_word then advanceStart category cs (start + 1) true else start)
    else start

/-- The advance-the-stop loop of utils.sub_hybrid: word-forming characters at
and after position stop-1 push the stop index forward; the flag records
whether the index moved. -/
def advanceStop (category : Char → String) : List Char → Int → Bool → Int × Bool
  | [], stop, modified => (stop, modified)
  | c :: cs, stop, modified =>
    if category c ∈ LETTER then advanceStop category cs (stop + 1) true
    else (stop, modified)

/-- Body of utils.sub_hybrid after index normalization and the bounds checks.
Returns `none` where the Python code raises IndexError: the final
`s[stop - 1]` read when the stop index ran past the end of the string.
The membership test `s[stop - 1] not in SPACE` of the source compares the
character itself (a one-character string) with the category names in
`SPACE`, so it can never be false; it is embedded verbatim. -/
def subHybridMain (category : Char → String) (s : List Char) (start1 : Int)
    (stop1 : Option Int) : Option (List Char) :=
  let in_word : Bool :=
    if 0 < start1 then
      match pyGet s (start1 - 1) with
      | some c => decide (category c ∈ LETTER)
      | none => false
    else false
  let start2 := advanceStart category (pySlice s start1 none) start1 in_word
  match stop1 with
  | none => some (pySlice s start2 none)
  | some t =>
    if t ≤ start2 then some []
    else
      match advanceStop category (pySlice s (t - 1) none) t false with
      | (t2, modified) =>
        if modified then
          match pyGet s (t2 - 1) with
          | none => none
          | some c =>
            if String.singleton c ∈ SPACE then some (pySlice s start2 (some t2))
            else some (pySlice s start2 (some (t2 - 1)))
        else some (pySlice s start2 (some t2))

/-- Embeds utils.sub_hybrid: word-boundary-respecting slice of mixed-script
text with Python index conventions. `none` models the IndexError the source
can raise in its final boundary adjustment. -/
def sub_hybrid (category : Char → String) (s : List Char) (start0 : Int)
    (stop0 : Option Int) : Option (List Char) :=
  let n : Int := s.length
  let start1 := pyNormIdx s.length start0
  if n ≤ start1 then some []
  else
    match stop0 with
    | none => subHybridMain category s start1 none
    | some t0 =>
      let t := pyNormIdx s.length t0
      if t ≤ start1 then some []
      else subHybridMain category s start1 (if n ≤ t then none else some t)

/-- Concrete Unicode category assignment agreeing with `unicodedata.category`
on the characters used in the witnesses below (ASCII letters, digits, space,
common punctuation, the horizontal ellipsis and CJK ideographs). -/
def asciiCategory (c : Char) : String :=
  if c = ' ' then "Zs"
  else if 'a' ≤ c ∧ c ≤ 'z' then "Ll"
  else if 'A' ≤ c ∧ c ≤ 'Z' then "Lu"
  else if '0' ≤ c ∧ c ≤ '9' then "Nd"
  else if c = '-' ∨ c = '_' then "Pd"
  else if c = ',' ∨ c = '.' ∨ c = '!' ∨ c = '?' ∨ c = ';' ∨ c = ':' ∨ c = '…' then "Po"
  else "Lo"

example : len_hybrid asciiCategory "Hello 世界 World".toList = 4 := by decide
example : len_hybrid asciiCategory "deepseek-r1".toList = 1 := by decide
example : sub_hybrid asciiCategory "Hello 世界 World".toList 0 (some 6) =
    some "Hello ".toList := by decide
example : sub_hybrid asciiCategory "Hello 世界 World".toList 6 (some 9) =
    some "世界 ".toList := by decide
example : sub_hybrid asciiCategory "Hello 世界 World".toList 9 none =
    some "World".toList := by decide
example : sub_hybrid asciiCategory "ab".toList 0 (some 1) = none := by decide
example : sub_hybrid asciiCategory "中 E3n 6中E9".toList 0 (some 3) =
    some "中 E3n".toList := by decide
example : sub_hybrid asciiCategory "中 E3n 6中E9".toList 2 (some 6) =
    some "E3n ".toList := by decide
example : sub_hybrid asciiCategory "zh-en混合".toList (-2) (some (-1)) =
    some "混".toList := by decide
example : sub_hybrid asciiCategory "ab".toList (-3) none = some "b".toList := by decide
example : sub_hybrid asciiCategory "ab".toList (-1) none = some "".toList := by decide

/-- Embeds srt.SRTEntry; times are seconds, Python floats modelled as `ℚ`.
The Lean keyword forces the field name `endT` for `end`. -/
structure SRTEntry where
  index : Nat
  start : ℚ
  endT : ℚ
  text : List Char
  deriving Repr, DecidableEq

/-- Loop body of SRT.correct_time, carrying the previous entry: at each pair,
if the previous end exceeds the next start, push the next start forward
(modify_start) or pull the previous end back (default). -/
def correctTimeGo (modify_start : Bool) (prev : SRTEntry) :
    List SRTEntry → List SRTEntry
  | [] => [prev]
  | e :: rest =>
    if e.start < prev.endT then
      if modify_start then
        prev :: correctTimeGo modify_start { e with start := prev.endT } rest
      else
        { prev with endT := e.start } :: correctTimeGo modify_start e rest
    else prev :: correctTimeGo modify_start e rest

/-- Embeds SRT.correct_time: resolve overlapping neighbours in place; the
index loop of the source is rendered as recursion carrying the previous
entry. -/
def correct_time (modify_start : Bool) : List SRTEntry → List SRTEntry
  | [] => []
  | e :: rest => correctTimeGo modify_start e rest

/-- Loop body of SRT.fill_time, carrying the previous entry: every boundary
is made exactly contiguous. -/
def fillTimeGo (modify_start : Bool) (prev : SRTEntry) :
    List SRTEntry → List SRTEntry
  | [] => [prev]
  | e :: rest =>
    if modify_start then
      prev :: fillTimeGo modify_start { e with start := prev.endT } rest
    else
      { prev with endT := e.start } :: fillTimeGo modify_start e rest

/-- Embeds SRT.fill_time: make neighbours exactly contiguous, moving the
previous end (default) or the next start. -/
def fill_time (modify_start : Bool) : List SRTEntry → List SRTEntry
  | [] => []
  | e :: rest => fillTimeGo modify_start e rest

lemma correctTimeGo_cons (ms : Bool) (prev : SRTEntry) (l : List SRTEntry) :
    ∃ e1 tl, correctTimeGo ms prev l = e1 :: tl ∧ e1.start = prev.start ∧
      e1.index = prev.index ∧ e1.text = prev.text ∧
      (ms = true → e1.endT = prev.endT) := by
  cases l with
  | nil => exact ⟨prev, [], rfl, rfl, rfl, rfl, fun _ => rfl⟩
  | cons e rest =>
    by_cases hov : e.start < prev.endT
    · cases ms with
      | true =>
        refine ⟨prev, correctTimeGo true { e with start := prev.endT } rest,
          ?_, rfl, rfl, rfl, fun _ => rfl⟩
        simp [correctTimeGo, hov]
      | false =>
        refine ⟨{ prev with endT := e.start }, correctTimeGo false e rest,
          ?_, rfl, rfl, rfl, ?_⟩
        · simp [correctTimeGo, hov]
        · intro h; cases h
    · refine ⟨prev, correctTimeGo ms e rest, ?_, rfl, rfl, rfl, fun _ => rfl⟩
      simp [correctTimeGo, hov]

lemma correctTimeGo_chain (ms : Bool) :
    ∀ (l : List SRTEntry) (prev : SRTEntry),
      List.Chain' (fun a b => a.endT ≤ b.start) (correctTimeGo ms prev l)
  | [], prev => by simp [correctTimeGo]
  | e :: rest, prev => by
    by_cases hov : e.start < prev.endT
    · cases ms with
      | true =>
        simp only [correctTimeGo, hov, if_true]
        obtain ⟨e1, tl, heq, hstart, -, -, -⟩ :=
          correctTimeGo_cons true { e with start := prev.endT } rest
        rw [heq]
        refine List.Chain'.cons ?_ (heq ▸ correctTimeGo_chain true rest _)
        simp [hstart]
      | false =>
        simp only [correctTimeGo, hov, if_true, Bool.false_eq_true, if_false]
        obtain ⟨e1, tl, heq, hstart, -, -, -⟩ := correctTimeGo_cons false e rest
        rw [heq]
        refine List.Chain'.cons ?_ (heq ▸ correctTimeGo_chain false rest _)
        simp [hstart]
    · simp only [correctTimeGo, hov, if_false]
      obtain ⟨e1, tl, heq, hstart, -, -, -⟩ := correctTimeGo_cons ms e rest
      rw [heq]
      refine List.Chain'.cons ?_ (heq ▸ correctTimeGo_chain ms rest _)
      rw [hstart]
      exact le_of_not_lt hov

lemma correctTimeGo_frame (ms : Bool) :
    ∀ (l : List SRTEntry) (prev : SRTEntry),
      (correctTimeGo ms prev l).map (fun e => (e.index, e.text)) =
        (prev :: l).map (fun e => (e.index, e.text))
  | [], prev => by simp [correctTimeGo]
  | e :: rest, prev => by
    by_cases hov : e.start < prev.endT <;> cases ms <;>
      simp [correctTimeGo, hov, correctTimeGo_frame _ rest]

lemma fillTimeGo_frame (ms : Bool) :
    ∀ (l : List SRTEntry) (prev : SRTEntry),
      (fillTimeGo ms prev l).map (fun e => (e.index, e.text)) =
        (prev :: l).map (fun e => (e.index, e.text))
  | [], prev => by simp [fillTimeGo]
  | e :: rest, prev => by
    cases ms <;> simp [fillTimeGo, fillTimeGo_frame _ rest]

lemma correctTimeGo_false_starts :
    ∀ (l : List SRTEntry) (prev : SRTEntry),
      (correctTimeGo false prev l).map SRTEntry.start =
        (prev :: l).map SRTEntry.start
  | [], prev => by simp [correctTimeGo]
  | e :: rest, prev => by
    by_cases hov : e.start < prev.endT <;>
      simp [correctTimeGo, hov, correctTimeGo_false_starts rest]

lemma correctTimeGo_false_ends :
    ∀ (l : List SRTEntry) (prev : SRTEntry),
      List.Forall₂ (fun x y => x.endT ≤ y.endT) (correctTimeGo false prev l)
        (prev :: l)
  | [], prev => by simp [correctTimeGo]
  | e :: rest, prev => by
    by_cases hov : e.start < prev.endT
    · simp only [correctTimeGo, hov, if_true, Bool.false_eq_true, if_false]
      exact List.Forall₂.cons (le_of_lt hov) (correctTimeGo_false_ends rest e)
    · simp only [correctTimeGo, hov, if_false]
      exact List.Forall₂.cons le_rfl (correctTimeGo_false_ends rest e)

lemma correctTimeGo_true_ends :
    ∀ (l : List SRTEntry) (prev : SRTEntry),
      (correctTimeGo true prev l).map SRTEntry.endT =
        (prev :: l).map SRTEntry.endT
  | [], prev => by simp [correctTimeGo]
  | e :: rest, prev => by
    by_cases hov : e.start < prev.endT <;>
      simp [correctTimeGo, hov, correctTimeGo_true_ends rest]

lemma correctTimeGo_true_starts :
    ∀ (l : List SRTEntry) (prev : SRTEntry),
      List.Forall₂ (fun x y => y.start ≤ x.start) (correctTimeGo true prev l)
        (prev :: l)
  | [], prev => by simp [correctTimeGo]
  | e :: rest, prev => by
    by_cases hov : e.start < prev.endT
    · simp only [correctTimeGo, hov, if_true]
      refine List.Forall₂.cons le_rfl ?_
      have ih := correctTimeGo_true_starts rest { e with start := prev.endT }
      obtain ⟨e1, tl, heq, -, -, -, -⟩ :=
        correctTimeGo_cons true { e with start := prev.endT } rest
      rw [heq] at ih ⊢
      rcases List.forall₂_cons.mp ih with ⟨h1, h2⟩
      exact List.Forall₂.cons (le_trans (le_of_lt hov) h1) h2
    · simp only [correctTimeGo, hov, if_false]
      exact List.Forall₂.cons le_rfl (correctTimeGo_true_starts rest e)

/-- C8: after correct_time, in either mode, every adjacent pair of entries
satisfies previous end ≤ next start; with modify_start = false only end
times change and they are only pulled back (starts are untouched), and with
modify_start = true only start times change and they are only pushed forward
(ends are untouched). -/
theorem correct_time_no_overlap (es : List SRTEntry) :
    (∀ ms : Bool,
      List.Chain' (fun a b => a.endT ≤ b.start) (correct_time ms es)) ∧
    (correct_time false es).map SRTEntry.start = es.map SRTEntry.start ∧
    List.Forall₂ (fun x y => x.endT ≤ y.endT) (correct_time false es) es ∧
    (correct_time true es).map SRTEntry.endT = es.map SRTEntry.endT ∧
    List.Forall₂ (fun x y => y.start ≤ x.start) (correct_time true es) es := by
  cases es with
  | nil =>
    refine ⟨fun ms => ?_, rfl, List.Forall₂.nil, rfl, List.Forall₂.nil⟩
    simp [correct_time]
  | cons e rest =>
    exact ⟨fun ms => correctTimeGo_chain ms rest e,
      correctTimeGo_false_starts rest e,
      correctTimeGo_false_ends rest e,
      correctTimeGo_true_ends rest e,
      correctTimeGo_true_starts rest e⟩

/-- C10: correct_time and fill_time keep the number of entries, their order,
their index fields and their text fields unchanged in both modes; only the
start and end timestamps are rewritten (the source mutates the entry list in
place and returns self, modelled here as a state transform). -/
theorem correct_fill_time_frame (es : List SRTEntry) (ms : Bool) :
    (correct_time ms es).map (fun e => (e.index, e.text)) =
      es.map (fun e => (e.index, e.text)) ∧
    (fill_time ms es).map (fun e => (e.index, e.text)) =
      es.map (fun e => (e.index, e.text)) ∧
    (correct_time ms es).length = es.length ∧
    (fill_time ms es).length = es.length := by
  have h1 : (correct_time ms es).map (fun e => (e.index, e.text)) =
      es.map (fun e => (e.index, e.text)) := by
    cases es with
    | nil => rfl
    | cons e rest => exact correctTimeGo_frame ms rest e
  have h2 : (fill_time ms es).map (fun e => (e.index, e.text)) =
      es.map (fun e => (e.index, e.text)) := by
    cases es with
    | nil => rfl
    | cons e rest => exact fillTimeGo_frame ms rest e
  refine ⟨h1, h2, ?_, ?_⟩
  · have := congrArg List.length h1; simpa using this
  · have := congrArg List.length h2; simpa using this

lemma lenHybridAux_add_skip (category : Char → String) :
    ∀ (s : List Char) (iw : Bool),
      lenHybridAux category iw s + lenHybridSkip category iw s = s.length
  | [], _ => rfl
  | c :: cs, iw => by
    by_cases hs : category c ∈ SPACE
    · simp only [lenHybridAux, lenHybridSkip, hs, if_true, List.length_cons]
      have := lenHybridAux_add_skip category cs false
      omega
    · by_cases hl : category c ∈ LETTER
      · simp only [lenHybridAux, lenHybridSkip, hs, if_false, hl, if_true,
          List.length_cons]
        have := lenHybridAux_add_skip category cs true
        cases iw <;> simp <;> omega
      · simp only [lenHybridAux, lenHybridSkip, hs, if_false, hl,
          List.length_cons]
        have := lenHybridAux_add_skip category cs false
        omega

lemma len_hybrid_eq_aux (category : Char → String) (s : List Char) :
    len_hybrid category s = lenHybridAux category false s := by
  have h := lenHybridAux_add_skip category s false
  unfold len_hybrid
  omega

lemma lenHybridAux_le_length (category : Char → String) :
    ∀ (s : List Char) (iw : Bool), lenHybridAux category iw s ≤ s.length
  | [], _ => Nat.le_refl 0
  | c :: cs, iw => by
    have h1 := lenHybridAux_le_length category cs false
    have h2 := lenHybridAux_le_length category cs true
    by_cases hs : category c ∈ SPACE
    · simp only [lenHybridAux, hs, if_true, List.length_cons]; omega
    · by_cases hl : category c ∈ LETTER
      · simp only [lenHybridAux, hs, if_false, hl, if_true, List.length_cons]
        cases iw <;> simp <;> omega
      · simp only [lenHybridAux, hs, if_false, hl, List.length_cons]; omega

/-- Splitting at a separator character is additive for the hybrid length. -/
lemma lenHybridAux_append_space (category : Char → String) {c : Char}
    (hc : category c ∈ SPACE) (b : List Char) :
    ∀ (a : List Char) (iw : Bool),
      lenHybridAux category iw (a ++ c :: b) =
        lenHybridAux category iw a + lenHybridAux category false b
  | [], iw => by simp [lenHybridAux, hc]
  | x :: a, iw => by
    rw [List.cons_append]
    by_cases hs : category x ∈ SPACE
    · simp only [lenHybridAux, hs, if_true]
      exact lenHybridAux_append_space category hc b a false
    · by_cases hl : category x ∈ LETTER
      · simp only [lenHybridAux, hs, if_false, hl, if_true]
        rw [lenHybridAux_append_space category hc b a true]
        omega
      · simp only [lenHybridAux, hs, if_false, hl]
        rw [lenHybridAux_append_space category hc b a false]
        omega

/-- Python min on two rationals, by kernel-computable comparison. -/
def pyMin (a b : ℚ) : ℚ := if Rat.blt b a then b else a

/-- Python max on two rationals, by kernel-computable comparison. -/
def pyMax (a b : ℚ) : ℚ := if Rat.blt a b then b else a

lemma rat_blt_iff (a b : ℚ) : Rat.blt a b = true ↔ a < b := Iff.rfl

lemma pyMin_eq_min (a b : ℚ) : pyMin a b = min a b := by
  unfold pyMin
  split
  · next h => rw [min_eq_right (le_of_lt ((rat_blt_iff b a).mp h))]
  · next h =>
    rw [min_eq_left (le_of_not_lt (fun hlt => h ((rat_blt_iff b a).mpr hlt)))]

lemma pyMax_eq_max (a b : ℚ) : pyMax a b = max a b := by
  unfold pyMax
  split
  · next h => rw [max_eq_right (le_of_lt ((rat_blt_iff a b).mp h))]
  · next h =>
    rw [max_eq_left (le_of_not_lt (fun hlt => h ((rat_blt_iff a b).mpr hlt)))]

/-- First index of s at which pat occurs, if any. -/
def findIdxAux (pat : List Char) : List Char → Option Nat
  | [] => if pat = [] then some 0 else none
  | c :: cs =>
    if pat.isPrefixOf (c :: cs) then some 0 else (findIdxAux pat cs).map (· + 1)

/-- Python str.find(pat, start): smallest match index at or after start, or
-1; an empty pattern matches at start whenever start is at most the length. -/
def pyFindFrom (s pat : List Char) (start : Nat) : Int :=
  if s.length < start then -1
  else
    match findIdxAux pat (s.drop start) with
    | some i => ((start + i : Nat) : Int)
    | none => -1

example : pyFindFrom "abc".toList [] 3 = 3 := by decide
example : pyFindFrom "abc".toList [] 4 = -1 := by decide
example : pyFindFrom "aa bb".toList [' '] 2 = 2 := by decide
example : pyFindFrom "aa bb".toList [' '] 3 = -1 := by decide

/-- Inner splitting loop of SRT.split_by_length for one over-long entry.
The accumulator holds all produced entries so far in reverse order; `none`
models the IndexError raised when the short-tail merge fires while no entry
has been produced yet. After an iteration whose find returned -1 the while
condition fails, so that case returns directly here. Fuel is structural;
every recursive call strictly shortens the text, so text length plus one is
always enough fuel. -/
def splitLoop (sep : List Char) (min_tail_length : Nat) (entryEnd dur : ℚ) :
    Nat → List Char → Int → ℚ → Nat → List SRTEntry →
      Option (Nat × List SRTEntry)
  | 0, _, _, _, i, accRev => some (i, accRev)
  | fuel + 1, s, split_index, start, i, accRev =>
    if split_index ≤ 0 then some (i, accRev)
    else
      let found := pyFindFrom s sep split_index.toNat
      if found = -1 then
        if s.length < min_tail_length then
          match accRev with
          | [] => none
          | last :: restAcc =>
            some (i, ⟨last.index, last.start, entryEnd,
              last.text ++ sep ++ s⟩ :: restAcc)
        else
          some (i + 1, ⟨i, start, pyMin (start + dur) entryEnd, s⟩ :: accRev)
      else
        let endQ := pyMin (start + dur) entryEnd
        let piece : SRTEntry :=
          ⟨i, start, endQ, if 0 < found then s.take found.toNat else s⟩
        splitLoop sep min_tail_length entryEnd dur fuel
          (pySlice s (found + 1) none) found endQ (i + 1) (piece :: accRev)

/-- Outer loop of SRT.split_by_length over the entries, carrying the next
index and the reversed accumulator of produced entries. -/
def splitEntries (max_length min_tail_length : Nat) (sep : List Char) :
    List SRTEntry → Nat → List SRTEntry → Option (Nat × List SRTEntry)
  | [], i, accRev => some (i, accRev)
  | e :: rest, i, accRev =>
    if e.text.length ≤ max_length then
      splitEntries max_length min_tail_length sep rest (i + 1)
        (⟨i, e.start, e.endT, e.text⟩ :: accRev)
    else
      let dur := ((max_length : ℚ) - 1) / (e.text.length : ℚ) *
        (e.endT - e.start)
      match splitLoop sep min_tail_length e.endT dur (e.text.length + 1)
          e.text (max_length : Int) e.start i accRev with
      | none => none
      | some (i2, acc2) =>
        splitEntries max_length min_tail_length sep rest i2 acc2

/-- Embeds SRT.split_by_length: entries whose character length exceeds
max_length are cut at separator occurrences found from position max_length
on, the time of each piece being the length share (max_length - 1) divided
by the entry length; a final tail shorter than min_tail_length is merged
into the previously produced entry. -/
def split_by_length (max_length min_tail_length : Nat) (sep : List Char)
    (entries : List SRTEntry) : Option (List SRTEntry) :=
  (splitEntries max_length min_tail_length sep entries 1 []).map
    fun p => p.2.reverse

example :
    split_by_length 2 1 [' '] [⟨1, 0, 8, ['a','a',' ','b','b',' ','c','c']⟩] =
      some [⟨1, 0, 1, ['a','a']⟩, ⟨2, 1, 2, ['b','b']⟩,
        ⟨3, 2, 3, ['c','c']⟩] := by
  have hf1 : pyFindFrom ['a','a',' ','b','b',' ','c','c'] [' '] 2 = 2 := by
    decide
  have hf2 : pyFindFrom ['b','b',' ','c','c'] [' '] 2 = 2 := by decide
  have hf3 : pyFindFrom ['c','c'] [' '] 2 = -1 := by decide
  have hs1 : pySlice ['a','a',' ','b','b',' ','c','c'] (2 + 1) none =
      ['b','b',' ','c','c'] := by decide
  have hs2 : pySlice ['b','b',' ','c','c'] (2 + 1) none = ['c','c'] := by
    decide
  have ht1 : List.take 2 ['a','a',' ','b','b',' ','c','c'] =
      ['a','a'] := by decide
  have ht2 : List.take 2 ['b','b',' ','c','c'] = ['b','b'] := by
    decide
  have htn : (2 : Int).toNat = 2 := rfl
  simp only [split_by_length, splitEntries, splitLoop, Int.toNat_natCast,
    htn, hf1, hf2, hf3, hs1, hs2, ht1, ht2]
  norm_num [pyMin_eq_min, htn, hf1, hf2, hf3, hs1, hs2, ht1, ht2]

lemma pySlice_none_eq (s : List Char) (a : Int) :
    pySlice s a none = s.drop (pyIdx s.length a) := by
  show (s.take ((Option.map (pyIdx s.length) (none : Option Int)).getD
    s.length)).drop (pyIdx s.length a) = s.drop (pyIdx s.length a)
  rw [show (Option.map (pyIdx s.length) (none : Option Int)).getD s.length =
    s.length from rfl, List.take_length]

lemma pySlice_nonneg_none (s : List Char) (a : Int) (h : 0 ≤ a) :
    pySlice s a none = s.drop a.toNat := by
  rw [pySlice_none_eq]
  unfold pyIdx
  rw [if_neg (by omega : ¬a < 0)]
  rcases le_or_lt a.toNat s.length with hle | hlt
  · rw [min_eq_left hle]
  · rw [min_eq_right (le_of_lt hlt), List.drop_length,
      List.drop_eq_nil_of_le (le_of_lt hlt)]

lemma findIdxAux_ok (pat : List Char) :
    ∀ (t : List Char) (i : Nat), findIdxAux pat t = some i →
      i ≤ t.length ∧ pat.isPrefixOf (t.drop i)
  | [], i => by
    unfold findIdxAux
    split
    · next hp =>
      intro h
      obtain rfl : 0 = i := by simpa using h
      subst hp
      exact ⟨Nat.le_refl 0, rfl⟩
    · intro h; simp at h
  | c :: cs, i => by
    unfold findIdxAux
    split
    · next hp =>
      intro h
      obtain rfl : 0 = i := by simpa using h
      exact ⟨Nat.zero_le _, by rw [List.drop_zero]; exact hp⟩
    · intro h
      cases hx : findIdxAux pat cs with
      | none => rw [hx] at h; simp at h
      | some j =>
        rw [hx] at h
        simp only [Option.map_some', Option.some.injEq] at h
        obtain ⟨h1, h2⟩ := findIdxAux_ok pat cs j hx
        subst h
        refine ⟨?_, ?_⟩
        · simp only [List.length_cons]; omega
        · rw [List.drop_succ_cons]; exact h2

lemma pyFindFrom_ok (s pat : List Char) (st : Nat) (k : Int)
    (hk : pyFindFrom s pat st = k) (hne : k ≠ -1) :
    0 ≤ k ∧ st ≤ k.toNat ∧ k.toNat ≤ s.length ∧
      pat.isPrefixOf (s.drop k.toNat) := by
  unfold pyFindFrom at hk
  split at hk
  · exact absurd hk.symm hne
  · next hlen =>
    cases hx : findIdxAux pat (s.drop st) with
    | none => rw [hx] at hk; exact absurd hk.symm hne
    | some i =>
      rw [hx] at hk
      have hk2 : ((st + i : Nat) : Int) = k := hk
      obtain ⟨h1, h2⟩ := findIdxAux_ok pat (s.drop st) i hx
      rw [List.length_drop] at h1
      subst hk2
      refine ⟨by omega, by omega, by omega, ?_⟩
      have ht : ((st + i : Nat) : Int).toNat = st + i := by omega
      rw [ht, ← List.drop_drop]
      exact h2

lemma getLast?_cons_ne_nil {α : Type} (x : α) {l : List α} (h : l ≠ []) :
    (x :: l).getLast? = l.getLast? := by
  cases l with
  | nil => exact absurd rfl h
  | cons y ys => exact List.getLast?_cons_cons

lemma pyMin_le_right (a b : ℚ) : pyMin a b ≤ b := by
  rw [pyMin_eq_min]; exact min_le_right a b

lemma splitLoop_struct (sep : List Char) (minT : Nat) (entryEnd dur : ℚ) :
    ∀ (fuel : Nat) (s : List Char) (split_index : Int) (start : ℚ) (i : Nat)
      (accRev : List SRTEntry),
      s.length < fuel → 0 < split_index →
      (accRev = [] → minT ≤ s.length) →
      List.Chain' (fun a b => b.endT = a.start) accRev →
      (∀ h1 ∈ accRev.head?, h1.endT = start) →
      (∀ x ∈ accRev, x.endT ≤ entryEnd) →
      ∃ i2 acc2,
        splitLoop sep minT entryEnd dur fuel s split_index start i accRev =
          some (i2, acc2) ∧
        acc2 ≠ [] ∧
        List.Chain' (fun a b => b.endT = a.start) acc2 ∧
        (∀ x ∈ acc2, x.endT ≤ entryEnd) ∧
        (acc2.getLast?).map SRTEntry.start =
          (if accRev.isEmpty then some start
           else (accRev.getLast?).map SRTEntry.start) := by
  intro fuel
  induction fuel with
  | zero => intro s _ _ _ _ hlen; omega
  | succ fuel ih =>
    intro s split_index start i accRev hlen hpos hminT hchain hhead hle
    simp only [splitLoop]
    rw [if_neg (not_le.mpr hpos)]
    by_cases hf : pyFindFrom s sep split_index.toNat = -1
    · rw [if_pos hf]
      by_cases hshort : s.length < minT
      · rw [if_pos hshort]
        cases accRev with
        | nil => exact absurd (hminT rfl) (by omega)
        | cons last restAcc =>
          refine ⟨i, _, rfl, List.cons_ne_nil _ _, ?_, ?_, ?_⟩
          · rw [List.chain'_cons']
            refine ⟨?_, (List.chain'_cons'.mp hchain).2⟩
            intro h2 hh2
            exact (List.chain'_cons'.mp hchain).1 h2 hh2
          · intro x hx
            rcases List.mem_cons.mp hx with rfl | hx
            · exact le_refl entryEnd
            · exact hle x (List.mem_cons_of_mem _ hx)
          · rw [if_neg (by simp : ¬(last :: restAcc).isEmpty = true)]
            cases restAcc with
            | nil => rfl
            | cons r rs =>
              rw [getLast?_cons_ne_nil _ (List.cons_ne_nil r rs),
                getLast?_cons_ne_nil _ (List.cons_ne_nil r rs)]
      · rw [if_neg hshort]
        refine ⟨i + 1, _, rfl, List.cons_ne_nil _ _, ?_, ?_, ?_⟩
        · rw [List.chain'_cons']
          exact ⟨fun h1 hh1 => hhead h1 hh1, hchain⟩
        · intro x hx
          rcases List.mem_cons.mp hx with rfl | hx
          · exact pyMin_le_right _ _
          · exact hle x hx
        · cases accRev with
          | nil => rfl
          | cons a as =>
            rw [if_neg (by simp : ¬(a :: as).isEmpty = true),
              getLast?_cons_ne_nil _ (List.cons_ne_nil a as)]
    · rw [if_neg hf]
      obtain ⟨hf0, hfst, hflen, -⟩ :=
        pyFindFrom_ok s sep split_index.toNat _ rfl hf
      have hfpos : 0 < pyFindFrom s sep split_index.toNat := by omega
      have hslen : (pySlice s (pyFindFrom s sep split_index.toNat + 1)
          none).length < fuel := by
        rw [pySlice_nonneg_none s _ (by omega)]
        rw [List.length_drop]
        omega
      obtain ⟨i2, acc2, heq, hne, hch, hub, hlast⟩ :=
        ih (pySlice s (pyFindFrom s sep split_index.toNat + 1) none)
          (pyFindFrom s sep split_index.toNat)
          (pyMin (start + dur) entryEnd) (i + 1)
          (⟨i, start, pyMin (start + dur) entryEnd,
            if 0 < pyFindFrom s sep split_index.toNat then
              List.take (pyFindFrom s sep split_index.toNat).toNat s
            else s⟩ :: accRev)
          hslen hfpos (fun h => absurd h (List.cons_ne_nil _ _))
          (by
            rw [List.chain'_cons']
            exact ⟨fun h1 hh1 => hhead h1 hh1, hchain⟩)
          (by intro h1 hh1; simp at hh1; rw [← hh1])
          (by
            intro x hx
            rcases List.mem_cons.mp hx with rfl | hx
            · exact pyMin_le_right _ _
            · exact hle x hx)
      refine ⟨i2, acc2, heq, hne, hch, hub, ?_⟩
      rw [hlast]
      cases accRev with
      | nil =>
        rw [if_neg (by simp : ¬(_ :: ([] : List SRTEntry)).isEmpty = true)]
        simp
      | cons a as =>
        rw [if_neg (by simp : ¬(_ :: a :: as).isEmpty = true),
          if_neg (by simp : ¬(a :: as).isEmpty = true),
          getLast?_cons_ne_nil _ (List.cons_ne_nil a as)]

/-- C3: the split of one over-long entry starts at the entry start, is
time-contiguous, and never runs past the entry end; the spec additionally
claims that the last piece ends exactly at the entry end, which the code
does not guarantee (see the counterexample below). -/
theorem split_by_length_single_entry (e : SRTEntry) (maxL minT : Nat)
    (sep : List Char) (h1 : maxL < e.text.length) (h2 : 0 < maxL)
    (h3 : minT ≤ e.text.length) :
    ∃ out, split_by_length maxL minT sep [e] = some out ∧ out ≠ [] ∧
      (∀ h ∈ out.head?, h.start = e.start) ∧
      List.Chain' (fun a b => a.endT = b.start) out ∧
      (∀ x ∈ out, x.endT ≤ e.endT) := by
  obtain ⟨i2, acc2, heq, hne, hch, hub, hlast⟩ :=
    splitLoop_struct sep minT e.endT
      (((maxL : ℚ) - 1) / (e.text.length : ℚ) * (e.endT - e.start))
      (e.text.length + 1) e.text (maxL : Int) e.start 1 []
      (by omega) (by exact_mod_cast h2) (fun _ => h3)
      List.chain'_nil (by intro h hh; simp at hh) (by intro x hx; simp at hx)
  refine ⟨acc2.reverse, ?_, ?_, ?_, ?_, ?_⟩
  · unfold split_by_length splitEntries
    rw [if_neg (by omega : ¬e.text.length ≤ maxL)]
    simp only [heq]
    rfl
  · simp only [ne_eq, List.reverse_eq_nil_iff]
    exact hne
  · intro h hh
    rw [List.head?_reverse] at hh
    simp only [List.isEmpty_nil, if_true] at hlast
    cases hg : acc2.getLast? with
    | none => rw [hg] at hh; simp at hh
    | some g =>
      rw [hg] at hh hlast
      simp only [Option.map_some', Option.some.injEq] at hlast
      simp only [Option.mem_def, Option.some.injEq] at hh
      rw [← hh]
      exact hlast
  · exact List.chain'_reverse.mpr hch
  · intro x hx
    exact hub x (List.mem_reverse.mp hx)

/-- C3 counterexample: a single entry over the span 0..8 whose text is split
into three pieces; the produced pieces end at 1, 2 and 3, so the last piece
does not end at the entry end 8 (the proportional time allocation
undershoots). -/
theorem split_by_length_last_end_counterexample :
    split_by_length 2 1 [' ']
        [⟨1, 0, 8, ['a','a',' ','b','b',' ','c','c']⟩] =
      some [⟨1, 0, 1, ['a','a']⟩, ⟨2, 1, 2, ['b','b']⟩,
        ⟨3, 2, 3, ['c','c']⟩] ∧ (3 : ℚ) ≠ 8 := by
  constructor
  · have hf1 : pyFindFrom ['a','a',' ','b','b',' ','c','c'] [' '] 2 = 2 := by
      decide
    have hf2 : pyFindFrom ['b','b',' ','c','c'] [' '] 2 = 2 := by decide
    have hf3 : pyFindFrom ['c','c'] [' '] 2 = -1 := by decide
    have hs1 : pySlice ['a','a',' ','b','b',' ','c','c'] (2 + 1) none =
        ['b','b',' ','c','c'] := by decide
    have hs2 : pySlice ['b','b',' ','c','c'] (2 + 1) none = ['c','c'] := by
      decide
    have ht1 : List.take 2 ['a','a',' ','b','b',' ','c','c'] =
        ['a','a'] := by decide
    have ht2 : List.take 2 ['b','b',' ','c','c'] = ['b','b'] := by decide
    have htn : (2 : Int).toNat = 2 := rfl
    simp only [split_by_length, splitEntries, splitLoop, Int.toNat_natCast,
      htn, hf1, hf2, hf3, hs1, hs2, ht1, ht2]
    norm_num [pyMin_eq_min, htn, hf1, hf2, hf3, hs1, hs2, ht1, ht2]
  · norm_num

lemma splitLoop_sum (category : Char → String) {c : Char}
    (hc : category c ∈ SPACE) (minT : Nat) (entryEnd dur : ℚ) :
    ∀ (fuel : Nat) (s : List Char) (split_index : Int) (start : ℚ) (i : Nat)
      (accRev : List SRTEntry),
      s.length < fuel → 0 < split_index →
      (accRev = [] → minT ≤ s.length) →
      ∃ i2 acc2,
        splitLoop [c] minT entryEnd dur fuel s split_index start i accRev =
          some (i2, acc2) ∧
        (acc2.map (fun x => lenHybridAux category false x.text)).sum =
          (accRev.map (fun x => lenHybridAux category false x.text)).sum +
            lenHybridAux category false s := by
  intro fuel
  induction fuel with
  | zero => intro s _ _ _ _ hlen; omega
  | succ fuel ih =>
    intro s split_index start i accRev hlen hpos hminT
    simp only [splitLoop]
    rw [if_neg (not_le.mpr hpos)]
    by_cases hf : pyFindFrom s [c] split_index.toNat = -1
    · rw [if_pos hf]
      by_cases hshort : s.length < minT
      · rw [if_pos hshort]
        cases accRev with
        | nil => exact absurd (hminT rfl) (by omega)
        | cons last restAcc =>
          refine ⟨i, _, rfl, ?_⟩
          simp only [List.map_cons, List.sum_cons]
          rw [List.append_assoc, List.singleton_append,
            lenHybridAux_append_space category hc s last.text false]
          omega
      · rw [if_neg hshort]
        refine ⟨i + 1, _, rfl, ?_⟩
        simp only [List.map_cons, List.sum_cons]
        omega
    · rw [if_neg hf]
      obtain ⟨hf0, hfst, hflen, hpre⟩ :=
        pyFindFrom_ok s [c] split_index.toNat _ rfl hf
      have hfpos : 0 < pyFindFrom s [c] split_index.toNat := by omega
      have hdropc : s.drop (pyFindFrom s [c] split_index.toNat).toNat =
          c :: s.drop ((pyFindFrom s [c] split_index.toNat).toNat + 1) := by
        cases hd : s.drop (pyFindFrom s [c] split_index.toNat).toNat with
        | nil => rw [hd] at hpre; simp [List.isPrefixOf] at hpre
        | cons x xs =>
          rw [hd] at hpre
          simp only [List.isPrefixOf, List.isPrefixOf_nil_left,
            Bool.and_true] at hpre
          have hx : c = x := by simpa using hpre
          subst hx
          have : xs = s.drop ((pyFindFrom s [c] split_index.toNat).toNat + 1)
            := by
            rw [← List.tail_drop, hd, List.tail_cons]
          rw [this]
      have hslen : (pySlice s (pyFindFrom s [c] split_index.toNat + 1)
          none).length < fuel := by
        rw [pySlice_nonneg_none s _ (by omega)]
        rw [List.length_drop]
        omega
      have hsplit : lenHybridAux category false s =
          lenHybridAux category false
            (List.take (pyFindFrom s [c] split_index.toNat).toNat s) +
          lenHybridAux category false
            (s.drop ((pyFindFrom s [c] split_index.toNat).toNat + 1)) := by
        conv_lhs =>
          rw [← List.take_append_drop
            (pyFindFrom s [c] split_index.toNat).toNat s, hdropc]
        rw [lenHybridAux_append_space category hc _ _ false]
      obtain ⟨i2, acc2, heq, hsum⟩ :=
        ih (pySlice s (pyFindFrom s [c] split_index.toNat + 1) none)
          (pyFindFrom s [c] split_index.toNat)
          (pyMin (start + dur) entryEnd) (i + 1)
          (⟨i, start, pyMin (start + dur) entryEnd,
            if 0 < pyFindFrom s [c] split_index.toNat then
              List.take (pyFindFrom s [c] split_index.toNat).toNat s
            else s⟩ :: accRev)
          hslen hfpos (fun h => absurd h (List.cons_ne_nil _ _))
      refine ⟨i2, acc2, heq, ?_⟩
      rw [hsum]
      have htn : (pyFindFrom s [c] split_index.toNat + 1).toNat =
          (pyFindFrom s [c] split_index.toNat).toNat + 1 := by omega
      rw [pySlice_nonneg_none s _ (by omega), htn]
      simp only [List.map_cons, List.sum_cons, if_pos hfpos]
      omega

lemma splitEntries_sum (category : Char → String) {c : Char}
    (hc : category c ∈ SPACE) (maxL minT : Nat) (hmax : 0 < maxL) :
    ∀ (entries : List SRTEntry) (i : Nat) (accRev : List SRTEntry),
      (∀ e ∈ entries, minT ≤ e.text.length ∨ e.text.length ≤ maxL) →
      ∃ i2 acc2,
        splitEntries maxL minT [c] entries i accRev = some (i2, acc2) ∧
        (acc2.map (fun x => lenHybridAux category false x.text)).sum =
          (accRev.map (fun x => lenHybridAux category false x.text)).sum +
            (entries.map
              (fun x => lenHybridAux category false x.text)).sum
  | [], i, accRev, _ => ⟨i, accRev, rfl, by simp⟩
  | e :: rest, i, accRev, hent => by
    unfold splitEntries
    by_cases hlen : e.text.length ≤ maxL
    · rw [if_pos hlen]
      obtain ⟨i2, acc2, heq, hsum⟩ :=
        splitEntries_sum category hc maxL minT hmax rest (i + 1)
          (⟨i, e.start, e.endT, e.text⟩ :: accRev)
          (fun x hx => hent x (List.mem_cons_of_mem _ hx))
      refine ⟨i2, acc2, heq, ?_⟩
      rw [hsum]
      simp only [List.map_cons, List.sum_cons]
      omega
    · rw [if_neg hlen]
      have hminT : minT ≤ e.text.length := by
        rcases hent e (List.mem_cons_self e rest) with h | h
        · exact h
        · exact absurd h hlen
      obtain ⟨im, accm, heqm, hsumm⟩ :=
        splitLoop_sum category hc minT e.endT
          (((maxL : ℚ) - 1) / (e.text.length : ℚ) * (e.endT - e.start))
          (e.text.length + 1) e.text (maxL : Int) e.start i accRev
          (by omega) (by exact_mod_cast hmax) (fun _ => hminT)
      simp only [heqm]
      obtain ⟨i2, acc2, heq, hsum⟩ :=
        splitEntries_sum category hc maxL minT hmax rest im accm
          (fun x hx => hent x (List.mem_cons_of_mem _ hx))
      refine ⟨i2, acc2, heq, ?_⟩
      rw [hsum, hsumm]
      simp only [List.map_cons, List.sum_cons]
      omega

/-- C4: when the separator is a single separator-class character (such as a
space), maxLength is positive and no entry is simultaneously longer than
maxLength and shorter than minTailLength, splitting conserves the total
hybrid length; the spec claims this for every separator, which fails for
the empty separator (see the counterexample below). -/
theorem split_by_length_space_sep_conservation (category : Char → String)
    (c : Char) (hc : category c ∈ SPACE) (maxL minT : Nat) (hmax : 0 < maxL)
    (entries : List SRTEntry)
    (hent : ∀ e ∈ entries, minT ≤ e.text.length ∨ e.text.length ≤ maxL) :
    ∃ out, split_by_length maxL minT [c] entries = some out ∧
      (out.map (fun x => len_hybrid category x.text)).sum =
        (entries.map (fun x => len_hybrid category x.text)).sum := by
  obtain ⟨i2, acc2, heq, hsum⟩ :=
    splitEntries_sum category hc maxL minT hmax entries 1 [] hent
  refine ⟨acc2.reverse, ?_, ?_⟩
  · unfold split_by_length
    rw [heq]
    rfl
  · have hlh : ∀ l : List SRTEntry,
        (l.map (fun x => len_hybrid category x.text)).sum =
          (l.map (fun x => lenHybridAux category false x.text)).sum := by
      intro l
      induction l with
      | nil => rfl
      | cons x xs ihx =>
        simp only [List.map_cons, List.sum_cons, ihx,
          len_hybrid_eq_aux category x.text]
    rw [hlh, hlh, List.map_reverse, List.sum_reverse, hsum]
    simp

/-- C4 counterexample: with the empty separator (the documented choice for
Chinese), each cut drops one character: the entry "abcdef" (one word, hybrid
length 1) is split into "abc" and "ef" with total hybrid length 2. -/
theorem split_by_length_conservation_counterexample :
    split_by_length 3 1 []
        [⟨1, 0, 4, ['a','b','c','d','e','f']⟩] =
      some [⟨1, 0, 4/3, ['a','b','c']⟩, ⟨2, 4/3, 8/3, ['e','f']⟩] ∧
    len_hybrid asciiCategory ['a','b','c'] +
      len_hybrid asciiCategory ['e','f'] = 2 ∧
    len_hybrid asciiCategory ['a','b','c','d','e','f'] = 1 := by
  refine ⟨?_, by decide, by decide⟩
  have hf1 : pyFindFrom ['a','b','c','d','e','f'] [] 3 = 3 := by decide
  have hf2 : pyFindFrom ['e','f'] [] 3 = -1 := by decide
  have hs1 : pySlice ['a','b','c','d','e','f'] (3 + 1) none = ['e','f'] := by
    decide
  have ht1 : List.take 3 ['a','b','c','d','e','f'] = ['a','b','c'] := by
    decide
  have htn : (3 : Int).toNat = 3 := rfl
  simp only [split_by_length, splitEntries, splitLoop, Int.toNat_natCast,
    htn, hf1, hf2, hs1, ht1]
  norm_num [pyMin_eq_min, htn, hf1, hf2, hs1, ht1]

theorem split_by_length_single_entry_witness :
    ∃ out, split_by_length 2 1 [' ']
        [⟨1, 0, 8, ['a','a',' ','b','b',' ','c','c']⟩] = some out ∧
      out ≠ [] ∧
      (∀ h ∈ out.head?,
        h.start = (⟨1, 0, 8, ['a','a',' ','b','b',' ','c','c']⟩ :
          SRTEntry).start) ∧
      List.Chain' (fun a b => a.endT = b.start) out ∧
      (∀ x ∈ out, x.endT ≤ (⟨1, 0, 8, ['a','a',' ','b','b',' ','c','c']⟩ :
        SRTEntry).endT) :=
  split_by_length_single_entry ⟨1, 0, 8, ['a','a',' ','b','b',' ','c','c']⟩
    2 1 [' '] (by decide) (by decide) (by decide)

theorem split_by_length_conservation_witness :
    ∃ out, split_by_length 2 1 [' ']
        [⟨1, 0, 8, ['a','a',' ','b','b',' ','c','c']⟩] = some out ∧
      (out.map (fun x => len_hybrid asciiCategory x.text)).sum =
        ([(⟨1, 0, 8, ['a','a',' ','b','b',' ','c','c']⟩ : SRTEntry)].map
          (fun x => len_hybrid asciiCategory x.text)).sum :=
  split_by_length_space_sep_conservation asciiCategory ' ' (by decide) 2 1
    (by decide) [⟨1, 0, 8, ['a','a',' ','b','b',' ','c','c']⟩] (by decide)

/-- Characters consumed by the advance-the-start loop of sub_hybrid. -/
def consume (category : Char → String) : Bool → List Char → Nat
  | _, [] => 0
  | iw, ch :: cs =>
    if category ch ∈ SPACE then consume category false cs + 1
    else if category ch ∈ LETTER then
      (if iw then consume category true cs + 1 else 0)
    else 0

/-- Characters consumed by the advance-the-stop loop of sub_hybrid:
the leading run of word-forming characters. -/
def letterCount (category : Char → String) : List Char → Nat
  | [] => 0
  | ch :: cs =>
    if category ch ∈ LETTER then letterCount category cs + 1 else 0

/-- Whether scanning a string leaves the counter inside a word. -/
def wordEnd (category : Char → String) : Bool → List Char → Bool
  | iw, [] => iw
  | _, ch :: cs =>
    wordEnd category
      (if category ch ∈ SPACE then false
       else if category ch ∈ LETTER then true else false) cs

lemma advanceStart_eq (category : Char → String) :
    ∀ (t : List Char) (st : Int) (iw : Bool),
      advanceStart category t st iw = st + (consume category iw t : Int)
  | [], st, iw => by simp [advanceStart, consume]
  | ch :: cs, st, iw => by
    by_cases hs : category ch ∈ SPACE
    · simp only [advanceStart, consume, hs, if_true,
        advanceStart_eq category cs (st + 1) false]
      push_cast; ring
    · by_cases hl : category ch ∈ LETTER
      · cases iw with
        | true =>
          simp only [advanceStart, consume, hs, if_false, hl, if_true,
            advanceStart_eq category cs (st + 1) true]
          push_cast; ring
        | false => simp [advanceStart, consume, hs, hl]
      · simp [advanceStart, consume, hs, hl]

lemma advanceStop_eq (category : Char → String) :
    ∀ (t : List Char) (st : Int) (m : Bool),
      advanceStop category t st m =
        (st + (letterCount category t : Int),
         if letterCount category t = 0 then m else true)
  | [], st, m => by simp [advanceStop, letterCount]
  | ch :: cs, st, m => by
    by_cases hl : category ch ∈ LETTER
    · simp only [advanceStop, letterCount, hl, if_true,
        advanceStop_eq category cs (st + 1) true, Prod.mk.injEq]
      refine ⟨by push_cast; ring, ?_⟩
      rw [if_neg (by omega : ¬letterCount category cs + 1 = 0)]
      split <;> rfl
    · simp [advanceStop, letterCount, hl]

lemma lenHybridAux_drop_consume (category : Char → String) :
    ∀ (t : List Char) (iw : Bool),
      lenHybridAux category false (t.drop (consume category iw t)) =
        lenHybridAux category iw t
  | [], iw => by cases iw <;> rfl
  | ch :: cs, iw => by
    by_cases hs : category ch ∈ SPACE
    · simp only [consume, hs, if_true, List.drop_succ_cons,
        lenHybridAux_drop_consume category cs false]
      simp [lenHybridAux, hs]
    · by_cases hl : category ch ∈ LETTER
      · cases iw with
        | true =>
          simp only [consume, hs, if_false, hl, if_true,
            List.drop_succ_cons, lenHybridAux_drop_consume category cs true]
          simp [lenHybridAux, hs, hl]
        | false => simp [consume, hs, hl]
      · simp only [consume, hs, if_false, hl, List.drop_zero]
        simp [lenHybridAux, hs, hl]

lemma lenHybridAux_append_wordEnd (category : Char → String) (b : List Char) :
    ∀ (a : List Char) (iw : Bool),
      lenHybridAux category iw (a ++ b) =
        lenHybridAux category iw a +
          lenHybridAux category (wordEnd category iw a) b
  | [], iw => by simp [wordEnd, lenHybridAux]
  | ch :: a, iw => by
    rw [List.cons_append]
    by_cases hs : category ch ∈ SPACE
    · simp only [lenHybridAux, wordEnd, hs, if_true]
      exact lenHybridAux_append_wordEnd category b a false
    · by_cases hl : category ch ∈ LETTER
      · simp only [lenHybridAux, wordEnd, hs, if_false, hl, if_true]
        rw [lenHybridAux_append_wordEnd category b a true]
        omega
      · simp only [lenHybridAux, wordEnd, hs, if_false, hl]
        rw [lenHybridAux_append_wordEnd category b a false]
        omega

lemma wordEnd_append (category : Char → String) (b : List Char) :
    ∀ (a : List Char) (iw : Bool),
      wordEnd category iw (a ++ b) =
        wordEnd category (wordEnd category iw a) b
  | [], iw => by simp [wordEnd]
  | ch :: a, iw => by
    rw [List.cons_append]
    simp only [wordEnd]
    exact wordEnd_append category b a _

lemma consume_false_take_space (category : Char → String) :
    ∀ (t : List Char), ∀ ch ∈ t.take (consume category false t),
      category ch ∈ SPACE
  | [], ch => by simp [consume]
  | x :: cs, ch => by
    by_cases hs : category x ∈ SPACE
    · simp only [consume, hs, if_true, List.take_succ_cons, List.mem_cons]
      rintro (rfl | hch)
      · exact hs
      · exact consume_false_take_space category cs ch hch
    · by_cases hl : category x ∈ LETTER <;> simp [consume, hs, hl]

lemma letterCount_take_letters (category : Char → String) :
    ∀ (t : List Char), ∀ ch ∈ t.take (letterCount category t),
      category ch ∈ LETTER
  | [], ch => by simp [letterCount]
  | x :: cs, ch => by
    by_cases hl : category x ∈ LETTER
    · simp only [letterCount, hl, if_true, List.take_succ_cons,
        List.mem_cons]
      rintro (rfl | hch)
      · exact hl
      · exact letterCount_take_letters category cs ch hch
    · simp [letterCount, hl]

lemma consume_le_length (category : Char → String) :
    ∀ (t : List Char) (iw : Bool), consume category iw t ≤ t.length
  | [], _ => Nat.le_refl 0
  | ch :: cs, iw => by
    have h1 := consume_le_length category cs false
    have h2 := consume_le_length category cs true
    by_cases hs : category ch ∈ SPACE
    · simp only [consume, hs, if_true, List.length_cons]; omega
    · by_cases hl : category ch ∈ LETTER
      · cases iw with
        | true =>
          simp only [consume, hs, if_false, hl, if_true, List.length_cons]
          omega
        | false => simp [consume, hs, hl]
      · simp [consume, hs, hl]

lemma letterCount_le_length (category : Char → String) :
    ∀ (t : List Char), letterCount category t ≤ t.length
  | [] => Nat.le_refl 0
  | ch :: cs => by
    have h1 := letterCount_le_length category cs
    by_cases hl : category ch ∈ LETTER
    · simp only [letterCount, hl, if_true, List.length_cons]; omega
    · simp [letterCount, hl]

lemma lenHybridAux_allspace (category : Char → String) :
    ∀ (a : List Char) (iw : Bool), (∀ ch ∈ a, category ch ∈ SPACE) →
      lenHybridAux category iw a = 0
  | [], _, _ => rfl
  | ch :: a, iw, h => by
    have hs : category ch ∈ SPACE := h ch (List.mem_cons_self ch a)
    simp only [lenHybridAux, hs, if_true]
    exact lenHybridAux_allspace category a false
      (fun x hx => h x (List.mem_cons_of_mem _ hx))

lemma wordEnd_allspace (category : Char → String) :
    ∀ (a : List Char) (iw : Bool), (∀ ch ∈ a, category ch ∈ SPACE) →
      wordEnd category iw a = (if a.isEmpty then iw else false)
  | [], _, _ => rfl
  | ch :: a, iw, h => by
    have hs : category ch ∈ SPACE := h ch (List.mem_cons_self ch a)
    simp only [wordEnd, hs, if_true]
    rw [wordEnd_allspace category a false
      (fun x hx => h x (List.mem_cons_of_mem _ hx))]
    cases a <;> simp

lemma space_notin_letter : ∀ x ∈ SPACE, x ∉ LETTER := by decide

lemma lenHybridAux_true_allletters (category : Char → String) :
    ∀ (a : List Char), (∀ ch ∈ a, category ch ∈ LETTER) →
      lenHybridAux category true a = 0
  | [], _ => rfl
  | ch :: a, h => by
    have hl : category ch ∈ LETTER := h ch (List.mem_cons_self ch a)
    have hs : category ch ∉ SPACE := fun hs => space_notin_letter _ hs hl
    simp only [lenHybridAux, hs, if_false, hl, if_true, if_pos rfl]
    simpa using lenHybridAux_true_allletters category a
      (fun x hx => h x (List.mem_cons_of_mem _ hx))

lemma singleton_notin_space (ch : Char) : String.singleton ch ∉ SPACE := by
  intro h
  have hlen : (String.singleton ch).data.length = 1 := rfl
  simp only [SPACE, List.mem_cons, List.not_mem_nil, or_false] at h
  rcases h with h | h | h | h | h | h | h <;>
    rw [h] at hlen <;> exact absurd hlen (by decide)

lemma pySlice_nonneg (s : List Char) (a b : Int) (ha : 0 ≤ a) (hb : 0 ≤ b) :
    pySlice s a (some b) = (s.take b.toNat).drop a.toNat := by
  unfold pySlice pyIdx
  simp only [Option.map_some', Option.getD_some]
  rw [if_neg (by omega : ¬b < 0), if_neg (by omega : ¬a < 0)]
  have htake : s.take (min b.toNat s.length) = s.take b.toNat := by
    rcases le_or_lt b.toNat s.length with h | h
    · rw [min_eq_left h]
    · rw [min_eq_right (le_of_lt h), List.take_length,
        List.take_of_length_le (le_of_lt h)]
  rw [htake]
  rcases le_or_lt a.toNat s.length with h | h
  · rw [min_eq_left h]
  · rw [min_eq_right (le_of_lt h)]
    rw [List.drop_eq_nil_of_le (by rw [List.length_take]; omega),
      List.drop_eq_nil_of_le (by rw [List.length_take]; omega)]

lemma pyGet_eq (s : List Char) (i : Int) (h0 : 0 ≤ i) (hn : i < s.length) :
    pyGet s i = s.get? i.toNat := by
  unfold pyGet
  have hij : (if i < 0 then (s.length : Int) + i else i) = i :=
    if_neg (by omega)
  simp only [hij]
  rw [dif_pos ⟨by omega, by omega⟩, List.get?_eq_get (by omega)]

lemma pyNormIdx_nonneg (n : Nat) (i : Int) (h : 0 ≤ i) : pyNormIdx n i = i :=
  if_neg (by omega)

lemma sub_hybrid_of_start_ge (category : Char → String) (s : List Char)
    (a : Int) (b : Option Int) (h : (s.length : Int) ≤ pyNormIdx s.length a) :
    sub_hybrid category s a b = some [] := by
  unfold sub_hybrid
  rw [if_pos h]

/-- A sub_hybrid call with no stop index never raises. -/
lemma sub_hybrid_stop_none_some (category : Char → String) (s : List Char)
    (a : Int) : ∃ r, sub_hybrid category s a none = some r := by
  unfold sub_hybrid
  by_cases h : (s.length : Int) ≤ pyNormIdx s.length a
  · rw [if_pos h]
    exact ⟨[], rfl⟩
  · rw [if_neg h]
    unfold subHybridMain
    exact ⟨_, rfl⟩

/-- Evaluation of the suffix slice sub_hybrid(s, L, None) for 1 ≤ L < len s. -/
lemma sub_hybrid_suffix_eval (category : Char → String) (s : List Char)
    (L : Nat) (h1 : 1 ≤ L) (hLn : L < s.length) (ch : Char)
    (hch : s.get? (L - 1) = some ch) :
    sub_hybrid category s (L : Int) none =
      some ((s.drop L).drop
        (consume category (decide (category ch ∈ LETTER)) (s.drop L))) := by
  have e1 : pyNormIdx s.length (L : Int) = (L : Int) :=
    pyNormIdx_nonneg _ _ (by positivity)
  have e2 : pyGet s ((L : Int) - 1) = some ch := by
    rw [show ((L : Int) - 1) = ((L - 1 : Nat) : Int) from by omega]
    rw [pyGet_eq s _ (by positivity) (by omega)]
    rw [Int.toNat_natCast]
    exact hch
  have e3 : pySlice s (L : Int) none = s.drop L := by
    rw [pySlice_nonneg_none s _ (by positivity), Int.toNat_natCast]
  unfold sub_hybrid
  rw [e1, if_neg (by omega)]
  show subHybridMain category s (L : Int) none = _
  unfold subHybridMain
  rw [if_pos (by omega : (0 : Int) < (L : Int)), e2]
  show some (pySlice s (advanceStart category (pySlice s (L : Int) none)
    (L : Int) (decide (category ch ∈ LETTER))) none) = _
  rw [e3, advanceStart_eq]
  rw [pySlice_nonneg_none s _ (by positivity)]
  rw [show ((L : Int) + (consume category (decide (category ch ∈ LETTER))
      (s.drop L) : Int)).toNat =
    L + consume category (decide (category ch ∈ LETTER)) (s.drop L)
    from by omega]
  rw [← List.drop_drop]

lemma pyGet_none (s : List Char) (i : Int) (h : (s.length : Int) ≤ i) :
    pyGet s i = none := by
  unfold pyGet
  rw [dif_neg]
  intro hc
  have hj : (if i < 0 then (s.length : Int) + i else i) = i :=
    if_neg (by omega)
  rw [hj] at hc
  omega

/-- Evaluation of the prefix slice sub_hybrid(s, 0, L) for 1 ≤ L < len s:
four mutually exclusive outcomes, depending on the number m of leading
separators and the length k of the word-forming run at position L-1. -/
lemma sub_hybrid_cut_eval (category : Char → String) (s : List Char)
    (L : Nat) (h1 : 1 ≤ L) (hLn : L < s.length) :
    (L ≤ consume category false s ∧
      sub_hybrid category s 0 (some (L : Int)) = some []) ∨
    (consume category false s < L ∧
      letterCount category (s.drop (L - 1)) = 0 ∧
      sub_hybrid category s 0 (some (L : Int)) =
        some ((s.take L).drop (consume category false s))) ∨
    (consume category false s < L ∧
      0 < letterCount category (s.drop (L - 1)) ∧
      L - 1 + letterCount category (s.drop (L - 1)) < s.length ∧
      sub_hybrid category s 0 (some (L : Int)) =
        some ((s.take (L + letterCount category (s.drop (L - 1)) - 1)).drop
          (consume category false s))) ∨
    (consume category false s < L ∧
      0 < letterCount category (s.drop (L - 1)) ∧
      L - 1 + letterCount category (s.drop (L - 1)) = s.length ∧
      sub_hybrid category s 0 (some (L : Int)) = none) := by
  have hk_le : letterCount category (s.drop (L - 1)) ≤ s.length - (L - 1) := by
    have := letterCount_le_length category (s.drop (L - 1))
    rwa [List.length_drop] at this
  have e0 : pyNormIdx s.length (0 : Int) = 0 :=
    pyNormIdx_nonneg _ _ le_rfl
  have eL : pyNormIdx s.length (L : Int) = (L : Int) :=
    pyNormIdx_nonneg _ _ (by positivity)
  have e00 : pySlice s (0 : Int) none = s := by
    rw [pySlice_nonneg_none s 0 le_rfl]
    rfl
  have ePS : pySlice s ((L : Int) - 1) none = s.drop (L - 1) := by
    rw [show ((L : Int) - 1) = ((L - 1 : Nat) : Int) from by omega,
      pySlice_nonneg_none s _ (by positivity), Int.toNat_natCast]
  have hmain : sub_hybrid category s 0 (some (L : Int)) =
      subHybridMain category s 0 (some (L : Int)) := by
    unfold sub_hybrid
    rw [e0, if_neg (by omega : ¬(s.length : Int) ≤ 0)]
    show (if pyNormIdx s.length (L : Int) ≤ (0 : Int) then some []
      else subHybridMain category s 0
        (if (s.length : Int) ≤ pyNormIdx s.length (L : Int) then none
         else some (pyNormIdx s.length (L : Int)))) = _
    rw [eL, if_neg (by omega : ¬(L : Int) ≤ 0),
      if_neg (by omega : ¬(s.length : Int) ≤ (L : Int))]
  rw [hmain]
  have harm : subHybridMain category s 0 (some (L : Int)) =
      (if (L : Int) ≤ advanceStart category (pySlice s 0 none) 0 false then
        some []
      else
        match advanceStop category (pySlice s ((L : Int) - 1) none)
            (L : Int) false with
        | (t2, modified) =>
          if modified = true then
            match pyGet s (t2 - 1) with
            | none => none
            | some c =>
              if String.singleton c ∈ SPACE then
                some (pySlice s
                  (advanceStart category (pySlice s 0 none) 0 false)
                  (some t2))
              else
                some (pySlice s
                  (advanceStart category (pySlice s 0 none) 0 false)
                  (some (t2 - 1)))
          else
            some (pySlice s
              (advanceStart category (pySlice s 0 none) 0 false)
              (some t2))) := rfl
  rw [harm, e00, advanceStart_eq, zero_add]
  by_cases hm : L ≤ consume category false s
  · left
    refine ⟨hm, ?_⟩
    rw [if_pos (by exact_mod_cast hm :
      (L : Int) ≤ (consume category false s : Int))]
  · rw [if_neg (by omega :
      ¬(L : Int) ≤ (consume category false s : Int))]
    rw [ePS, advanceStop_eq]
    by_cases hk : letterCount category (s.drop (L - 1)) = 0
    · right; left
      refine ⟨by omega, hk, ?_⟩
      rw [hk]
      show some (pySlice s ((consume category false s : Nat) : Int)
        (some ((L : Int) + ((0 : Nat) : Int)))) = _
      rw [pySlice_nonneg s _ _ (by positivity) (by omega)]
      rw [show ((L : Int) + ((0 : Nat) : Int)).toNat = L from by omega,
        Int.toNat_natCast]
    · have hk1 : 0 < letterCount category (s.drop (L - 1)) := by omega
      by_cases hcr : L - 1 + letterCount category (s.drop (L - 1)) < s.length
      · right; right; left
        refine ⟨by omega, hk1, hcr, ?_⟩
        show (if (if letterCount category (s.drop (L - 1)) = 0 then false
            else true) = true then _ else _) = _
        rw [if_neg hk, if_pos rfl]
        have hidx : ((L : Int) +
            (letterCount category (s.drop (L - 1)) : Int)) - 1 =
            ((L + letterCount category (s.drop (L - 1)) - 1 : Nat) : Int) := by
          omega
        rw [hidx]
        cases hg : s.get? (L + letterCount category (s.drop (L - 1)) - 1) with
        | none =>
          rw [List.get?_eq_none] at hg
          omega
        | some ch2 =>
          rw [pyGet_eq s _ (by positivity) (by omega),
            Int.toNat_natCast, hg]
          show (if String.singleton ch2 ∈ SPACE then
              some (pySlice s ((consume category false s : Nat) : Int)
                (some ((L : Int) +
                  (letterCount category (s.drop (L - 1)) : Int))))
            else
              some (pySlice s ((consume category false s : Nat) : Int)
                (some ((L + letterCount category (s.drop (L - 1)) - 1 :
                  Nat) : Int)))) = _
          rw [if_neg (singleton_notin_space ch2)]
          rw [pySlice_nonneg s _ _ (by positivity) (by positivity),
            Int.toNat_natCast, Int.toNat_natCast]
      · right; right; right
        have hcr2 : L - 1 + letterCount category (s.drop (L - 1)) =
            s.length := by omega
        refine ⟨by omega, hk1, hcr2, ?_⟩
        show (if (if letterCount category (s.drop (L - 1)) = 0 then false
            else true) = true then _ else _) = _
        rw [if_neg hk, if_pos rfl]
        rw [pyGet_none s _ (by omega)]

lemma lenHybridAux_split (category : Char → String) (s : List Char) (j : Nat) :
    lenHybridAux category false s =
      lenHybridAux category false (s.take j) +
        lenHybridAux category (wordEnd category false (s.take j)) (s.drop j) := by
  conv_lhs => rw [← List.take_append_drop j s]
  rw [lenHybridAux_append_wordEnd]

lemma lenHybridAux_drop_spaces (category : Char → String) (t : List Char)
    (m : Nat) (hm : ∀ ch ∈ t.take m, category ch ∈ SPACE) :
    lenHybridAux category false (t.drop m) = lenHybridAux category false t := by
  have hz : lenHybridAux category false (t.take m) = 0 :=
    lenHybridAux_allspace category _ _ hm
  have hw : wordEnd category false (t.take m) = false := by
    rw [wordEnd_allspace category _ _ hm]
    split <;> rfl
  rw [lenHybridAux_split category t m, hz, hw, zero_add]

lemma wordEnd_drop_spaces (category : Char → String) (t : List Char)
    (m : Nat) (hm : ∀ ch ∈ t.take m, category ch ∈ SPACE) :
    wordEnd category false t = wordEnd category false (t.drop m) := by
  have hw : wordEnd category false (t.take m) = false := by
    rw [wordEnd_allspace category _ _ hm]
    split <;> rfl
  conv_lhs => rw [← List.take_append_drop m t]
  rw [wordEnd_append, hw]

lemma lenHybridAux_take_drop_spaces (category : Char → String) (s : List Char)
    (m F : Nat) (hmF : m ≤ F) (hm : ∀ ch ∈ s.take m, category ch ∈ SPACE) :
    lenHybridAux category false ((s.take F).drop m) =
      lenHybridAux category false (s.take F) := by
  refine lenHybridAux_drop_spaces category (s.take F) m ?_
  rw [List.take_take, min_eq_left hmF]
  exact hm

lemma drop_eq_cons_of_get : ∀ (s : List Char) (n : Nat) (ch : Char),
    s.get? n = some ch → s.drop n = ch :: s.drop (n + 1)
  | [], n, ch, h => by simp [List.get?] at h
  | c :: cs, 0, ch, h => by
    rw [show (c :: cs).get? 0 = some c from rfl, Option.some.injEq] at h
    subst h
    rfl
  | c :: cs, n + 1, ch, h => by
    rw [show (c :: cs).get? (n + 1) = cs.get? n from rfl] at h
    rw [List.drop_succ_cons, show (c :: cs).drop (n + 1 + 1) = cs.drop (n + 1)
      from List.drop_succ_cons]
    exact drop_eq_cons_of_get cs n ch h

lemma take_get_append (s : List Char) (L : Nat) (h1 : 1 ≤ L) (ch : Char)
    (hch : s.get? (L - 1) = some ch) :
    s.take L = s.take (L - 1) ++ [ch] := by
  have hch2 : s[L - 1]? = some ch := by
    rw [← List.get?_eq_getElem?]
    exact hch
  conv_lhs => rw [show L = (L - 1) + 1 from by omega]
  rw [List.take_succ, hch2]
  rfl

lemma wordEnd_take_get (category : Char → String) (s : List Char) (L : Nat)
    (h1 : 1 ≤ L) (ch : Char) (hch : s.get? (L - 1) = some ch) :
    wordEnd category false (s.take L) =
      (if category ch ∈ SPACE then false
       else if category ch ∈ LETTER then true else false) := by
  rw [take_get_append s L h1 ch hch, wordEnd_append]
  rfl

lemma letterCount_eq_length_all (category : Char → String) (t : List Char)
    (h : letterCount category t = t.length) :
    ∀ ch ∈ t, category ch ∈ LETTER := by
  intro ch hch
  have hall := letterCount_take_letters category t ch
  rw [h, List.take_length] at hall
  exact hall hch

/-- Evaluation of the suffix slice sub_hybrid(s, 0, None). -/
lemma sub_hybrid_zero_none_eval (category : Char → String) (s : List Char) :
    sub_hybrid category s 0 none =
      some (s.drop (consume category false s)) := by
  rcases Nat.eq_zero_or_pos s.length with hn | hn
  · have hs : s = [] := List.length_eq_zero.mp hn
    subst hs
    rfl
  · unfold sub_hybrid
    rw [pyNormIdx_nonneg _ _ le_rfl, if_neg (by omega : ¬(s.length : Int) ≤ 0)]
    show some (pySlice s (advanceStart category (pySlice s 0 none) 0 false)
      none) = _
    rw [show pySlice s 0 none = s from by
        rw [pySlice_nonneg_none s 0 le_rfl]; rfl,
      advanceStart_eq, zero_add, pySlice_nonneg_none s _ (by positivity),
      Int.toNat_natCast]

/-- Evaluation of sub_hybrid(s, 0, L) when L reaches past the end: the stop
index is dropped and the call degenerates to the suffix slice from 0. -/
lemma sub_hybrid_cut_ge_eval (category : Char → String) (s : List Char)
    (L : Nat) (h0 : 0 < s.length) (hL : s.length ≤ L) :
    sub_hybrid category s 0 (some (L : Int)) =
      some (s.drop (consume category false s)) := by
  unfold sub_hybrid
  rw [pyNormIdx_nonneg _ _ le_rfl, if_neg (by omega : ¬(s.length : Int) ≤ 0)]
  show (if pyNormIdx s.length (L : Int) ≤ (0 : Int) then some []
    else subHybridMain category s 0
      (if (s.length : Int) ≤ pyNormIdx s.length (L : Int) then none
       else some (pyNormIdx s.length (L : Int)))) = _
  rw [pyNormIdx_nonneg _ _ (by positivity), if_neg (by omega),
    if_pos (by omega : (s.length : Int) ≤ (L : Int))]
  show some (pySlice s (advanceStart category (pySlice s 0 none) 0 false)
    none) = _
  rw [show pySlice s 0 none = s from by
      rw [pySlice_nonneg_none s 0 le_rfl]; rfl,
    advanceStart_eq, zero_add, pySlice_nonneg_none s _ (by positivity),
    Int.toNat_natCast]

lemma sub_hybrid_zero_stop_zero (category : Char → String) (s : List Char)
    (h0 : 0 < s.length) :
    sub_hybrid category s 0 (some (0 : Int)) = some [] := by
  unfold sub_hybrid
  rw [pyNormIdx_nonneg _ _ le_rfl, if_neg (by omega : ¬(s.length : Int) ≤ 0)]
  show (if pyNormIdx s.length (0 : Int) ≤ (0 : Int) then some []
    else subHybridMain category s 0
      (if (s.length : Int) ≤ pyNormIdx s.length (0 : Int) then none
       else some (pyNormIdx s.length (0 : Int)))) = _
  rw [pyNormIdx_nonneg _ _ le_rfl, if_pos le_rfl]

/-- Conservation for a cut that returns normally: sub_hybrid(s,0,L) and
sub_hybrid(s,L,None) together carry exactly the hybrid length of s, and the
piece carries at most L hybrid units. -/
lemma sub_hybrid_cut_conservation (category : Char → String) (s : List Char)
    (L : Nat) (p : List Char)
    (hp : sub_hybrid category s 0 (some (L : Int)) = some p) :
    ∃ r, sub_hybrid category s (L : Int) none = some r ∧
      lenHybridAux category false p + lenHybridAux category false r =
        lenHybridAux category false s ∧
      lenHybridAux category false p ≤ L := by
  rcases Nat.eq_zero_or_pos s.length with hn0 | hn0
  · have hs : s = [] := List.length_eq_zero.mp hn0
    subst hs
    have hpe : sub_hybrid category [] 0 (some (L : Int)) = some [] :=
      sub_hybrid_of_start_ge category [] 0 _
        (by rw [pyNormIdx_nonneg _ _ le_rfl]; simp)
    rw [hpe, Option.some.injEq] at hp
    subst hp
    refine ⟨[], sub_hybrid_of_start_ge category [] _ _ ?_, rfl, Nat.zero_le L⟩
    rw [pyNormIdx_nonneg _ _ (by positivity)]
    simp
  rcases le_or_lt s.length L with hge | hlt
  · rw [sub_hybrid_cut_ge_eval category s L hn0 hge, Option.some.injEq] at hp
    subst hp
    refine ⟨[], sub_hybrid_of_start_ge category s _ _ ?_, ?_, ?_⟩
    · rw [pyNormIdx_nonneg _ _ (by positivity)]
      exact_mod_cast hge
    · rw [lenHybridAux_drop_consume category s false]
      rfl
    · rw [lenHybridAux_drop_consume category s false]
      have h1 := lenHybridAux_le_length category s false
      omega
  rcases Nat.eq_zero_or_pos L with hL0 | hL1
  · subst hL0
    rw [Nat.cast_zero, sub_hybrid_zero_stop_zero category s hn0,
      Option.some.injEq] at hp
    subst hp
    refine ⟨s.drop (consume category false s), ?_, ?_, le_rfl⟩
    · rw [Nat.cast_zero]
      exact sub_hybrid_zero_none_eval category s
    · show 0 + _ = _
      rw [Nat.zero_add, lenHybridAux_drop_consume category s false]
  obtain ⟨ch, hch⟩ : ∃ ch, s.get? (L - 1) = some ch := by
    cases hg : s.get? (L - 1) with
    | none => rw [List.get?_eq_none] at hg; omega
    | some c => exact ⟨c, rfl⟩
  have hdropc : s.drop (L - 1) = ch :: s.drop L := by
    have hd := drop_eq_cons_of_get s (L - 1) ch hch
    rwa [show L - 1 + 1 = L from by omega] at hd
  have hsuf := sub_hybrid_suffix_eval category s L hL1 hlt ch hch
  have hsplit := lenHybridAux_split category s L
  have hwtake := wordEnd_take_get category s L hL1 ch hch
  have hlen_take : lenHybridAux category false (s.take L) ≤ L := by
    have h1 := lenHybridAux_le_length category (s.take L) false
    have h2 : (s.take L).length ≤ L := by rw [List.length_take]; omega
    omega
  rcases sub_hybrid_cut_eval category s L hL1 hlt with
    ⟨hm, heval⟩ | ⟨hm, hk, heval⟩ | ⟨hm, hk1, hcr, heval⟩ |
    ⟨hm, hk1, hcr, heval⟩
  · rw [heval, Option.some.injEq] at hp
    subst hp
    have hspL : ∀ c' ∈ s.take L, category c' ∈ SPACE := by
      intro c' hc'
      apply consume_false_take_space category s
      have he : s.take L = (s.take (consume category false s)).take L := by
        rw [List.take_take, min_eq_left hm]
      rw [he] at hc'
      exact List.take_subset _ _ hc'
    have hchsp : category ch ∈ SPACE := by
      apply hspL
      rw [take_get_append s L hL1 ch hch]
      exact List.mem_append_right _ (List.mem_singleton_self ch)
    have hiw : decide (category ch ∈ LETTER) = false :=
      decide_eq_false (fun hl => space_notin_letter _ hchsp hl)
    rw [hiw] at hsuf
    refine ⟨_, hsuf, ?_, Nat.zero_le L⟩
    have hz : lenHybridAux category false (s.take L) = 0 :=
      lenHybridAux_allspace category _ _ hspL
    have hw : wordEnd category false (s.take L) = false := by
      rw [wordEnd_allspace category _ _ hspL]
      split <;> rfl
    rw [lenHybridAux_drop_consume category (s.drop L) false, hsplit, hz, hw]
    show 0 + _ = _
    rfl
  · rw [heval, Option.some.injEq] at hp
    subst hp
    have hchl : category ch ∉ LETTER := by
      intro hl
      rw [hdropc, show letterCount category (ch :: s.drop L) =
        if category ch ∈ LETTER then letterCount category (s.drop L) + 1
        else 0 from rfl, if_pos hl] at hk
      omega
    have hiw : decide (category ch ∈ LETTER) = false := decide_eq_false hchl
    rw [hiw] at hsuf
    have hsp := consume_false_take_space category s
    have hlp : lenHybridAux category false
        ((s.take L).drop (consume category false s)) =
        lenHybridAux category false (s.take L) :=
      lenHybridAux_take_drop_spaces category s _ L (by omega) hsp
    have hw : wordEnd category false (s.take L) = false := by
      rw [hwtake]
      by_cases hs : category ch ∈ SPACE
      · rw [if_pos hs]
      · rw [if_neg hs, if_neg hchl]
    refine ⟨_, hsuf, ?_, ?_⟩
    · rw [lenHybridAux_drop_consume category (s.drop L) false, hlp,
        hsplit, hw]
    · rw [hlp]
      exact hlen_take
  · rw [heval, Option.some.injEq] at hp
    subst hp
    have hchl : category ch ∈ LETTER := by
      by_contra hl
      rw [hdropc, show letterCount category (ch :: s.drop L) =
        if category ch ∈ LETTER then letterCount category (s.drop L) + 1
        else 0 from rfl, if_neg hl] at hk1
      omega
    have hchs : category ch ∉ SPACE :=
      fun hs => space_notin_letter _ hs hchl
    have hiw : decide (category ch ∈ LETTER) = true := decide_eq_true hchl
    rw [hiw] at hsuf
    have hkm1 : letterCount category (s.drop L) =
        letterCount category (s.drop (L - 1)) - 1 := by
      rw [hdropc, show letterCount category (ch :: s.drop L) =
        if category ch ∈ LETTER then letterCount category (s.drop L) + 1
        else 0 from rfl, if_pos hchl]
      omega
    have hw : wordEnd category false (s.take L) = true := by
      rw [hwtake, if_neg hchs, if_pos hchl]
    have hsp := consume_false_take_space category s
    have hlp : lenHybridAux category false
        ((s.take (L + letterCount category (s.drop (L - 1)) - 1)).drop
          (consume category false s)) =
        lenHybridAux category false
          (s.take (L + letterCount category (s.drop (L - 1)) - 1)) :=
      lenHybridAux_take_drop_spaces category s _ _ (by omega) hsp
    have hsplitF := lenHybridAux_split category
      (s.take (L + letterCount category (s.drop (L - 1)) - 1)) L
    have htt : (s.take
        (L + letterCount category (s.drop (L - 1)) - 1)).take L =
        s.take L := by
      rw [List.take_take, min_eq_left (by omega)]
    have hmid : (s.take
        (L + letterCount category (s.drop (L - 1)) - 1)).drop L =
        (s.drop L).take (letterCount category (s.drop (L - 1)) - 1) := by
      rw [List.drop_take (L + letterCount category (s.drop (L - 1)) - 1) L s,
        show L + letterCount category (s.drop (L - 1)) - 1 - L =
          letterCount category (s.drop (L - 1)) - 1 from by omega]
    have hmidlet : ∀ c' ∈ (s.drop L).take
        (letterCount category (s.drop (L - 1)) - 1),
        category c' ∈ LETTER := by
      intro c' hc'
      apply letterCount_take_letters category (s.drop L)
      rwa [← hkm1] at hc'
    have hmidz : lenHybridAux category true ((s.drop L).take
        (letterCount category (s.drop (L - 1)) - 1)) = 0 :=
      lenHybridAux_true_allletters category _ hmidlet
    refine ⟨_, hsuf, ?_, ?_⟩
    · rw [lenHybridAux_drop_consume category (s.drop L) true, hlp,
        hsplitF, htt, hw, hmid, hmidz, hsplit, hw]
      omega
    · rw [hlp, hsplitF, htt, hw, hmid, hmidz]
      omega
  · rw [heval] at hp
    exact Option.noConfusion hp

/-- When the cut sub_hybrid(s,0,L) raises the IndexError, the whole string
holds at most L hybrid units: the word-forming run from position L-1 reaches
the end of the string. -/
lemma sub_hybrid_cut_crash (category : Char → String) (s : List Char)
    (L : Nat) (h : sub_hybrid category s 0 (some (L : Int)) = none) :
    lenHybridAux category false s ≤ L := by
  rcases Nat.eq_zero_or_pos s.length with hn0 | hn0
  · have hs : s = [] := List.length_eq_zero.mp hn0
    subst hs
    rw [sub_hybrid_of_start_ge category [] 0 _
      (by rw [pyNormIdx_nonneg _ _ le_rfl]; simp)] at h
    exact Option.noConfusion h
  rcases le_or_lt s.length L with hge | hlt
  · rw [sub_hybrid_cut_ge_eval category s L hn0 hge] at h
    exact Option.noConfusion h
  rcases Nat.eq_zero_or_pos L with hL0 | hL1
  · subst hL0
    rw [Nat.cast_zero, sub_hybrid_zero_stop_zero category s hn0] at h
    exact Option.noConfusion h
  obtain ⟨ch, hch⟩ : ∃ ch, s.get? (L - 1) = some ch := by
    cases hg : s.get? (L - 1) with
    | none => rw [List.get?_eq_none] at hg; omega
    | some c => exact ⟨c, rfl⟩
  have hdropc : s.drop (L - 1) = ch :: s.drop L := by
    have hd := drop_eq_cons_of_get s (L - 1) ch hch
    rwa [show L - 1 + 1 = L from by omega] at hd
  rcases sub_hybrid_cut_eval category s L hL1 hlt with
    ⟨_, heval⟩ | ⟨_, _, heval⟩ | ⟨_, _, _, heval⟩ |
    ⟨hm, hk1, hcr, heval⟩
  · rw [heval] at h; exact Option.noConfusion h
  · rw [heval] at h; exact Option.noConfusion h
  · rw [heval] at h; exact Option.noConfusion h
  · have hklen : letterCount category (s.drop (L - 1)) =
        (s.drop (L - 1)).length := by
      rw [List.length_drop]
      omega
    have hall := letterCount_eq_length_all category _ hklen
    have hchl : category ch ∈ LETTER := by
      apply hall
      rw [hdropc]
      exact List.mem_cons_self _ _
    have halldrop : ∀ c' ∈ s.drop L, category c' ∈ LETTER := by
      intro c' hc'
      apply hall
      rw [hdropc]
      exact List.mem_cons_of_mem _ hc'
    have hw : wordEnd category false (s.take L) = true := by
      rw [wordEnd_take_get category s L hL1 ch hch,
        if_neg (fun hs => space_notin_letter _ hs hchl), if_pos hchl]
    have hz : lenHybridAux category true (s.drop L) = 0 :=
      lenHybridAux_true_allletters category _ halldrop
    have hlen_take : lenHybridAux category false (s.take L) ≤ L := by
      have h1 := lenHybridAux_le_length category (s.take L) false
      have h2 : (s.take L).length ≤ L := by rw [List.length_take]; omega
      omega
    rw [lenHybridAux_split category s L, hw, hz]
    omega

/-- C2: the hybrid slice conservation law fails as stated, because sub_hybrid
raises IndexError on some in-range cut indices — already s="ab", i=1, where
the final boundary adjustment reads s[stop-1] with stop-1 = len(s).  On every
cut that does return, the piece and the remaining suffix slice together carry
exactly the hybrid length of the whole string. -/
theorem sub_hybrid_slice_conservation :
    (∀ (category : Char → String) (s : List Char) (L : Nat) (p : List Char),
      sub_hybrid category s 0 (some (L : Int)) = some p →
      ∃ r, sub_hybrid category s (L : Int) none = some r ∧
        len_hybrid category p + len_hybrid category r =
          len_hybrid category s) ∧
    sub_hybrid asciiCategory "ab".toList 0 (some 1) = none ∧
    (1 : Nat) ≤ "ab".toList.length ∧
    len_hybrid asciiCategory "ab".toList = 1 := by
  refine ⟨?_, by decide, by decide, by decide⟩
  intro category s L p hp
  obtain ⟨r, hr, hsum, _⟩ := sub_hybrid_cut_conservation category s L p hp
  refine ⟨r, hr, ?_⟩
  simp only [len_hybrid_eq_aux]
  exact hsum

lemma pyNormIdx_neg (n : Nat) (i : Int) (h : i < 0) :
    pyNormIdx n i = i + n := if_pos h

lemma sub_hybrid_norm_congr (category : Char → String) (s : List Char)
    (a a' : Int) (c : Option Int)
    (h : pyNormIdx s.length a = pyNormIdx s.length a') :
    sub_hybrid category s a c = sub_hybrid category s a' c := by
  unfold sub_hybrid
  rw [h]

lemma sub_hybrid_norm_congr_stop (category : Char → String) (s : List Char)
    (a b b' : Int)
    (h : pyNormIdx s.length b = pyNormIdx s.length b') :
    sub_hybrid category s a (some b) = sub_hybrid category s a (some b') := by
  unfold sub_hybrid
  show (if (s.length : Int) ≤ pyNormIdx s.length a then some []
    else
      if pyNormIdx s.length b ≤ pyNormIdx s.length a then some []
      else subHybridMain category s (pyNormIdx s.length a)
        (if (s.length : Int) ≤ pyNormIdx s.length b then none
         else some (pyNormIdx s.length b))) =
    (if (s.length : Int) ≤ pyNormIdx s.length a then some []
    else
      if pyNormIdx s.length b' ≤ pyNormIdx s.length a then some []
      else subHybridMain category s (pyNormIdx s.length a)
        (if (s.length : Int) ≤ pyNormIdx s.length b' then none
         else some (pyNormIdx s.length b')))
  rw [h]

/-- C9 counterexample: for s="ab" and start=-3, sub_hybrid does not behave as
if the start were -3+len(s)=-1: the source adds len(s) only once, so the call
with -3 keeps the still-negative start -1 (yielding "b"), while the call with
-1 normalizes it to 1 inside a word and advances past the end (yielding ""). -/
theorem sub_hybrid_negative_shift_counterexample :
    sub_hybrid asciiCategory "ab".toList (-3) none = some ['b'] ∧
    sub_hybrid asciiCategory "ab".toList
      (-3 + ("ab".toList.length : Int)) none = some [] := by
  constructor <;> decide

/-- C9 (amended): sub_hybrid(s, len(s), len(s)+1) is the empty string, and a
negative start or stop index behaves as the shifted index start+len(s) /
stop+len(s) provided the negative index is at least -len(s); below -len(s)
the source normalizes only once, so the as-if law fails (see the
counterexample). -/
theorem sub_hybrid_index_conventions (category : Char → String)
    (s : List Char) (a a2 b0 : Int) (c : Option Int)
    (ha0 : a < 0) (ha : -(s.length : Int) ≤ a)
    (hb0 : b0 < 0) (hb : -(s.length : Int) ≤ b0) :
    sub_hybrid category s (s.length : Int)
      (some ((s.length : Int) + 1)) = some [] ∧
    sub_hybrid category s a c =
      sub_hybrid category s (a + s.length) c ∧
    sub_hybrid category s a2 (some b0) =
      sub_hybrid category s a2 (some (b0 + s.length)) := by
  refine ⟨?_, ?_, ?_⟩
  · unfold sub_hybrid
    rw [pyNormIdx_nonneg _ _ (by positivity), if_pos le_rfl]
  · refine sub_hybrid_norm_congr category s a _ c ?_
    rw [pyNormIdx_neg _ _ ha0, pyNormIdx_nonneg _ _ (by omega)]
  · refine sub_hybrid_norm_congr_stop category s a2 b0 _ ?_
    rw [pyNormIdx_neg _ _ hb0, pyNormIdx_nonneg _ _ (by omega)]

theorem sub_hybrid_index_conventions_witness :
    (sub_hybrid asciiCategory "ab".toList ("ab".toList.length : Int)
      (some (("ab".toList.length : Int) + 1)) = some [] ∧
    sub_hybrid asciiCategory "ab".toList (-1) none =
      sub_hybrid asciiCategory "ab".toList
        (-1 + ("ab".toList.length : Int)) none ∧
    sub_hybrid asciiCategory "ab".toList 0 (some (-1)) =
      sub_hybrid asciiCategory "ab".toList 0
        (some (-1 + ("ab".toList.length : Int)))) :=
  sub_hybrid_index_conventions asciiCategory "ab".toList (-1) 0 (-1) none
    (by decide) (by decide) (by decide) (by decide)

/-- Python str.count for a fixed pattern: non-overlapping occurrences,
scanning left to right (fuel-based recursion on the scan position). -/
def pyCountFuel (pat : List Char) : Nat → List Char → Nat
  | 0, _ => 0
  | _, [] => 0
  | fuel + 1, c :: cs =>
    if pat.isPrefixOf (c :: cs) then
      pyCountFuel pat fuel ((c :: cs).drop pat.length) + 1
    else pyCountFuel pat fuel cs

/-- Python s.count(pat) for a nonempty pattern. -/
def pyCount (s pat : List Char) : Nat := pyCountFuel pat s.length s

/-- The f-string tag "<L{i}>" of _translate_lines_as_html. -/
def tagOpen (i : Nat) : List Char := '<' :: 'L' :: (toString i).toList ++ ['>']

/-- The f-string tag "</L{i}>" of _translate_lines_as_html. -/
def tagClose (i : Nat) : List Char :=
  '<' :: '/' :: 'L' :: (toString i).toList ++ ['>']

/-- The tag-collecting loop of _translate_lines_as_html: for i in 1..N, find
"<L{i}>" and "</L{i}>" in the response and slice the text between them;
a missing tag aborts (the source returns [] there, mapped back below).
`cnt` counts the remaining iterations, `i` is the current tag number. -/
def collectTagsLoop (res : List Char) : Nat → Nat → Option (List (List Char))
  | 0, _ => some []
  | cnt + 1, i =>
    let st := pyFindFrom res (tagOpen i) 0
    let en := pyFindFrom res (tagClose i) 0
    if st = -1 ∨ en = -1 then none
    else
      match collectTagsLoop res cnt (i + 1) with
      | none => none
      | some rest =>
        some (pySlice res (st + 3 + ((toString i).toList.length : Int))
          (some en) :: rest)

/-- Embeds LLMTranslator._translate_lines_as_html as a function of the raw
LLM response (none models client.ask returning None).  All failure branches
of the source return the empty list: a None response, a tag-count mismatch,
and a missing tag in the collecting loop.  The discarded re.search call of
the source has no effect and is not modelled. -/
def translateLinesAsHtml (res0 : Option (List Char)) (N : Nat) :
    List (List Char) :=
  match res0 with
  | none => []
  | some res =>
    if pyCount res ['<', '/', 'L'] ≠ N ∨ pyCount res ['<', 'L'] ≠ N then []
    else
      match collectTagsLoop res N 1 with
      | none => []
      | some pieces => pieces

/-- The for-loop over range(try_html) in translate_lines: attempt a (of rem
remaining) accepts the html result iff its line count matches N. -/
def tryHtmlLoop (N : Nat) (htmlResp : Nat → Option (List Char)) :
    Nat → Nat → Option (List (List Char))
  | _, 0 => none
  | a, rem + 1 =>
    let res := translateLinesAsHtml (htmlResp a) N
    if res.length = N then some res
    else tryHtmlLoop N htmlResp (a + 1) rem

/-- Python str.strip(): remove leading and trailing whitespace.  Modelled
with the ASCII whitespace predicate, which agrees with Python's on the
characters appearing here. -/
def pyStrip (s : List Char) : List Char :=
  ((s.dropWhile Char.isWhitespace).reverse.dropWhile Char.isWhitespace).reverse

/-- Python str.removesuffix. -/
def removesuffix (s pat : List Char) : List Char :=
  if pat ≠ [] ∧ pat.isSuffixOf s then s.take (s.length - pat.length) else s

/-- The splitting loop of the translate_lines fallback: for each stored
length, cut sub_func(full, 0, length) (stripped) and continue on
sub_func(full, length, None); the final piece is the stripped remainder.
none models the IndexError sub_hybrid can raise. -/
def cutLoop (category : Char → String) :
    List Nat → List Char → Option (List (List Char))
  | [], full => some [pyStrip full]
  | l :: ls, full =>
    match sub_hybrid category full 0 (some (l : Int)) with
    | none => none
    | some piece =>
      match sub_hybrid category full (l : Int) none with
      | none => none
      | some rest =>
        match cutLoop category ls rest with
        | none => none
        | some out => some (pyStrip piece :: out)

/-- The split_lengths list of the translate_lines fallback:
[int(tar_len_func(full_res) * r) for r in ratio][:-1], with the float
arithmetic modelled exactly over ℚ (int() truncates, which is ⌊·⌋ for the
nonnegative values arising here). -/
def splitLengths (category : Char → String) (lines : List (List Char))
    (block : List Char) (total : Nat) : List Nat :=
  (lines.map (fun line =>
    (⌊(len_hybrid category block : ℚ) *
      ((len_hybrid category line : ℚ) / (total : ℚ))⌋).toNat)).dropLast

/-- The fallback path of translate_lines: join the lines (the joined text
only feeds the prompt; the response is the oracle textResp, mapped to "" when
None by translate_text), trim a trailing ellipsis, and split the block in
proportion to the source line lengths.  none models the uncaught
ZeroDivisionError when all source lines have hybrid length 0, and the
IndexError sub_hybrid can raise inside the cut loop. -/
def translateFallback (category : Char → String) (lines : List (List Char))
    (textResp : Option (List Char)) : Option (List (List Char)) :=
  let full1 := removesuffix (removesuffix (textResp.getD []) "...".toList)
    "……".toList
  let total := (lines.map (len_hybrid category)).sum
  if total = 0 then none
  else cutLoop category (splitLengths category lines full1 total) full1

/-- Embeds LLMTranslator.translate_lines with the LLM behaviour as oracles:
htmlResp a is the raw response of html attempt a, textResp the response of
the plain translate_text call. -/
def translate_lines (category : Char → String) (lines : List (List Char))
    (try_html : Nat) (htmlResp : Nat → Option (List Char))
    (textResp : Option (List Char)) : Option (List (List Char)) :=
  match tryHtmlLoop lines.length htmlResp 0 try_html with
  | some res => some res
  | none => translateFallback category lines textResp

lemma toNat_floor_mul_div (T a total : Nat) :
    (⌊(T : ℚ) * ((a : ℚ) / (total : ℚ))⌋).toNat = T * a / total := by
  rw [show (T : ℚ) * ((a : ℚ) / (total : ℚ)) =
      ((T * a : Nat) : ℚ) / ((total : Nat) : ℚ) from by push_cast; ring,
    Int.floor_toNat, Nat.floor_div_eq_div]

lemma nat_add_div_le (a b c : Nat) : a / c + b / c ≤ (a + b) / c := by
  rcases Nat.eq_zero_or_pos c with hc | hc
  · subst hc
    simp
  · rw [Nat.le_div_iff_mul_le hc, Nat.add_mul]
    have h1 := Nat.div_mul_le_self a c
    have h2 := Nat.div_mul_le_self b c
    omega

lemma sum_div_le_div_sum (total : Nat) : ∀ (as : List Nat),
    (as.map (fun a => a / total)).sum ≤ as.sum / total
  | [] => by simp
  | a :: as => by
    simp only [List.map_cons, List.sum_cons]
    calc a / total + (as.map (fun x => x / total)).sum
        ≤ a / total + as.sum / total :=
          Nat.add_le_add_left (sum_div_le_div_sum total as) _
      _ ≤ (a + as.sum) / total := nat_add_div_le a as.sum total

lemma tryHtmlLoop_length (N : Nat) (hr : Nat → Option (List Char)) :
    ∀ (rem a : Nat) (res : List (List Char)),
      tryHtmlLoop N hr a rem = some res → res.length = N
  | 0, _, _, h => by exact Option.noConfusion h
  | rem + 1, a, res, h => by
    by_cases hc : (translateLinesAsHtml (hr a) N).length = N
    · rw [show tryHtmlLoop N hr a (rem + 1) =
          (if (translateLinesAsHtml (hr a) N).length = N then
            some (translateLinesAsHtml (hr a) N)
          else tryHtmlLoop N hr (a + 1) rem) from rfl,
        if_pos hc, Option.some.injEq] at h
      rw [← h]
      exact hc
    · rw [show tryHtmlLoop N hr a (rem + 1) =
          (if (translateLinesAsHtml (hr a) N).length = N then
            some (translateLinesAsHtml (hr a) N)
          else tryHtmlLoop N hr (a + 1) rem) from rfl,
        if_neg hc] at h
      exact tryHtmlLoop_length N hr rem (a + 1) res h

/-- The cut loop returns one piece per stored length plus the tail, provided
the lengths sum to strictly less than the hybrid length of the current text
(or are all zero): each cut then stays strictly inside the text, so the
sub_hybrid IndexError cannot fire. -/
lemma cutLoop_some (category : Char → String) : ∀ (ls : List Nat)
    (s : List Char),
    (ls.sum < lenHybridAux category false s ∨ ∀ l ∈ ls, l = 0) →
    ∃ out, cutLoop category ls s = some out ∧ out.length = ls.length + 1
  | [], s, _ => ⟨[pyStrip s], rfl, rfl⟩
  | l :: ls, s, hcond => by
    have hcut : ∃ p, sub_hybrid category s 0 (some (l : Int)) = some p := by
      cases hc : sub_hybrid category s 0 (some (l : Int)) with
      | some p => exact ⟨p, rfl⟩
      | none =>
        have hcr := sub_hybrid_cut_crash category s l hc
        rcases hcond with hlt | hzero
        · rw [List.sum_cons] at hlt
          omega
        · have hl0 : l = 0 := hzero l (List.mem_cons_self _ _)
          subst hl0
          rcases Nat.eq_zero_or_pos s.length with hn | hn
          · rw [List.length_eq_zero.mp hn] at hc
            rw [sub_hybrid_of_start_ge category [] 0 _
              (by rw [pyNormIdx_nonneg _ _ le_rfl]; simp)] at hc
            exact Option.noConfusion hc
          · rw [Nat.cast_zero, sub_hybrid_zero_stop_zero category s hn] at hc
            exact Option.noConfusion hc
    obtain ⟨p, hp⟩ := hcut
    obtain ⟨r, hr, hsum, hple⟩ := sub_hybrid_cut_conservation category s l p hp
    have hnext : ls.sum < lenHybridAux category false r ∨ ∀ x ∈ ls, x = 0 := by
      rcases hcond with hlt | hzero
      · left
        rw [List.sum_cons] at hlt
        omega
      · right
        exact fun x hx => hzero x (List.mem_cons_of_mem _ hx)
    obtain ⟨out, hout, hlen⟩ := cutLoop_some category ls r hnext
    refine ⟨pyStrip p :: out, ?_, ?_⟩
    · show (match sub_hybrid category s 0 (some (l : Int)) with
        | none => none
        | some piece =>
          match sub_hybrid category s (l : Int) none with
          | none => none
          | some rest =>
            match cutLoop category ls rest with
            | none => none
            | some out => some (pyStrip piece :: out)) =
        some (pyStrip p :: out)
      rw [hp, hr]
      show (match cutLoop category ls r with
        | none => none
        | some out => some (pyStrip p :: out)) = some (pyStrip p :: out)
      rw [hout]
    · simp only [List.length_cons, hlen]

/-- The stored split lengths of the fallback total strictly less than the
hybrid length of the block (or are all zero, when the block is empty of
units): the last line's positive share is never stored. -/
lemma splitLengths_cond (category : Char → String) (lines : List (List Char))
    (block : List Char) (hne : lines ≠ [])
    (hpos : ∀ line ∈ lines, 0 < len_hybrid category line) :
    (splitLengths category lines block
        ((lines.map (len_hybrid category)).sum)).sum <
      lenHybridAux category false block ∨
    ∀ l ∈ splitLengths category lines block
        ((lines.map (len_hybrid category)).sum), l = 0 := by
  unfold splitLengths
  have hmap : lines.map (fun line =>
      (⌊(len_hybrid category block : ℚ) *
        ((len_hybrid category line : ℚ) /
          (((lines.map (len_hybrid category)).sum : Nat) : ℚ))⌋).toNat) =
      lines.map (fun line =>
        len_hybrid category block * len_hybrid category line /
          (lines.map (len_hybrid category)).sum) :=
    List.map_congr_left (fun line _ => toNat_floor_mul_div _ _ _)
  rw [hmap]
  rcases Nat.eq_zero_or_pos (len_hybrid category block) with hT | hT
  · right
    intro l hl
    have hl2 := List.dropLast_subset _ hl
    obtain ⟨line, _, hline⟩ := List.mem_map.mp hl2
    rw [hT, Nat.zero_mul, Nat.zero_div] at hline
    exact hline.symm
  · left
    have hdec := List.dropLast_append_getLast hne
    have hA : 0 < len_hybrid category (lines.getLast hne) :=
      hpos _ (List.getLast_mem hne)
    have hsplit_total : (lines.map (len_hybrid category)).sum =
        (lines.dropLast.map (len_hybrid category)).sum +
          len_hybrid category (lines.getLast hne) := by
      conv_lhs => rw [← hdec]
      rw [List.map_append, List.sum_append]
      simp
    have hdropmap : ∀ g : List Char → Nat,
        (lines.map g).dropLast = lines.dropLast.map g := by
      intro g
      conv_lhs => rw [← hdec]
      rw [List.map_append]
      simp only [List.map_cons, List.map_nil]
      exact List.dropLast_concat
    rw [hdropmap]
    have htot : 0 < (lines.map (len_hybrid category)).sum := by omega
    have hchain : (lines.dropLast.map (fun line =>
        len_hybrid category block * len_hybrid category line /
          (lines.map (len_hybrid category)).sum)).sum ≤
        len_hybrid category block *
          (lines.dropLast.map (len_hybrid category)).sum /
          (lines.map (len_hybrid category)).sum := by
      have e1 : lines.dropLast.map (fun line =>
          len_hybrid category block * len_hybrid category line /
            (lines.map (len_hybrid category)).sum) =
          (lines.dropLast.map (fun line =>
            len_hybrid category block * len_hybrid category line)).map
            (fun a => a / (lines.map (len_hybrid category)).sum) := by
        rw [List.map_map]
        rfl
      rw [e1]
      have e2 := sum_div_le_div_sum ((lines.map (len_hybrid category)).sum)
        (lines.dropLast.map (fun line =>
          len_hybrid category block * len_hybrid category line))
      have e3 : (lines.dropLast.map (fun line =>
          len_hybrid category block * len_hybrid category line)).sum =
          len_hybrid category block *
            (lines.dropLast.map (len_hybrid category)).sum :=
        List.sum_map_mul_left _ _ _
      rw [e3] at e2
      exact e2
    have hlast : len_hybrid category block *
        (lines.dropLast.map (len_hybrid category)).sum /
        (lines.map (len_hybrid category)).sum <
        len_hybrid category block := by
      rw [Nat.div_lt_iff_lt_mul htot]
      have hS : (lines.dropLast.map (len_hybrid category)).sum <
          (lines.map (len_hybrid category)).sum := by omega
      exact mul_lt_mul_of_pos_left hS hT
    rw [← len_hybrid_eq_aux]
    omega

/-- C1: for every backend behaviour, translate_lines returns exactly one
translated line per input line — via the tag path only when its parse has
that length, otherwise via the proportional fallback — provided every input
line has positive hybrid length.  The unconditional claim fails: on the
non-empty batch [""] every attempt count (here the spec scenario H=2 with
malformed responses) ends in the fallback, which divides by the zero total
source length (ZeroDivisionError, modelled as none). -/
theorem translate_lines_count :
    (∀ (category : Char → String) (lines : List (List Char)) (H : Nat)
      (htmlResp : Nat → Option (List Char)) (textResp : Option (List Char)),
      lines ≠ [] →
      (∀ line ∈ lines, 0 < len_hybrid category line) →
      ∃ out, translate_lines category lines H htmlResp textResp = some out ∧
        out.length = lines.length) ∧
    translate_lines asciiCategory [[]] 2 (fun _ => none) (some []) = none := by
  refine ⟨?_, by decide⟩
  intro category lines H htmlResp textResp hne hpos
  cases hloop : tryHtmlLoop lines.length htmlResp 0 H with
  | some res =>
    refine ⟨res, ?_, tryHtmlLoop_length _ _ _ _ _ hloop⟩
    unfold translate_lines
    rw [hloop]
  | none =>
    have htot : 0 < (lines.map (len_hybrid category)).sum := by
      obtain ⟨l0, ls0, heq⟩ := List.exists_cons_of_ne_nil hne
      have h0 := hpos l0 (by rw [heq]; exact List.mem_cons_self _ _)
      rw [heq]
      simp only [List.map_cons, List.sum_cons]
      omega
    have hcond := splitLengths_cond category lines
      (removesuffix (removesuffix (textResp.getD []) "...".toList)
        "……".toList) hne hpos
    obtain ⟨out, hout, hlen⟩ := cutLoop_some category _ _ hcond
    refine ⟨out, ?_, ?_⟩
    · unfold translate_lines
      rw [hloop]
      show translateFallback category lines textResp = some out
      unfold translateFallback
      rw [if_neg (by omega : ¬(lines.map (len_hybrid category)).sum = 0)]
      exact hout
    · have hsl : (splitLengths category lines
          (removesuffix (removesuffix (textResp.getD []) "...".toList)
            "……".toList) ((lines.map (len_hybrid category)).sum)).length =
          lines.length - 1 := by
        unfold splitLengths
        rw [List.length_dropLast, List.length_map]
      have hne' : 0 < lines.length := List.length_pos.mpr hne
      rw [hlen, hsl]
      omega

/-- Python round() to the nearest integer, ties to the even integer. -/
def pyRound (x : ℚ) : Int :=
  if x - ⌊x⌋ < 1/2 then ⌊x⌋
  else if 1/2 < x - ⌊x⌋ then ⌊x⌋ + 1
  else if ⌊x⌋ % 2 = 0 then ⌊x⌋ else ⌊x⌋ + 1

/-- C7 counterexample: with source lines "中","中" (shares 1/2 each) and a
translated block "中中中" of hybrid length 3, the code stores int(3·1/2) = 1
as the only cut, while the claimed round(3·1/2) is 2 (Python rounds the tie
1.5 to the even 2). -/
theorem proportional_cut_round_counterexample :
    splitLengths asciiCategory [['中'], ['中']] "中中中".toList 2 = [1] ∧
    pyRound ((len_hybrid asciiCategory "中中中".toList : ℚ) *
      ((len_hybrid asciiCategory ['中'] : ℚ) / ((2 : Nat) : ℚ))) = 2 := by
  have h3 : len_hybrid asciiCategory "中中中".toList = 3 := by decide
  have h1 : len_hybrid asciiCategory ['中'] = 1 := by decide
  constructor
  · unfold splitLengths
    simp only [List.map_cons, List.map_nil, h3, h1]
    rw [show ∀ (x y : Nat), List.dropLast [x, y] = [x] from fun x y => rfl]
    rw [toNat_floor_mul_div 3 1 2]
  · rw [h3, h1]
    have hx : ((3 : Nat) : ℚ) * (((1 : Nat) : ℚ) / ((2 : Nat) : ℚ)) = 3/2 := by
      push_cast
      ring
    rw [hx]
    have hf : ⌊(3/2 : ℚ)⌋ = 1 := by
      rw [Int.floor_eq_iff]
      norm_num
    unfold pyRound
    rw [hf]
    norm_num

/-- Modelled from the spec: the proportional fallback split as the spec
words it (C7), with the claimed round(·) corrected to the int(·) truncation
the source performs — piece k cuts ⌊hybridLength(block)·share_k⌋ units via
sub_hybrid, where share_k is line k's fraction of the total source hybrid
length, and the final piece takes the block to its end. -/
def specProportionalSplit (category : Char → String)
    (lines : List (List Char)) (block : List Char) :
    Option (List (List Char)) :=
  let total := (lines.map (len_hybrid category)).sum
  if total = 0 then none
  else
    cutLoop category
      (lines.dropLast.map (fun line =>
        (⌊(len_hybrid category block : ℚ) *
          ((len_hybrid category line : ℚ) / (total : ℚ))⌋).toNat))
      block

/-- C7 (amended): when every tag attempt fails the length test,
translate_lines performs exactly the spec's proportional split with int(·)
truncation in place of the claimed round(·): each non-final piece cuts
⌊T·share_k⌋ units off the (ellipsis-trimmed) block and the final piece runs
to its end. -/
theorem translate_lines_proportional (category : Char → String)
    (lines : List (List Char)) (H : Nat)
    (htmlResp : Nat → Option (List Char)) (textResp : Option (List Char))
    (hfail : ∀ a, (translateLinesAsHtml (htmlResp a) lines.length).length ≠
      lines.length) :
    translate_lines category lines H htmlResp textResp =
      specProportionalSplit category lines
        (removesuffix (removesuffix (textResp.getD []) "...".toList)
          "……".toList) := by
  have hloop : ∀ rem a, tryHtmlLoop lines.length htmlResp a rem = none := by
    intro rem
    induction rem with
    | zero => intro a; rfl
    | succ n ih =>
      intro a
      show (if (translateLinesAsHtml (htmlResp a) lines.length).length =
          lines.length then
          some (translateLinesAsHtml (htmlResp a) lines.length)
        else tryHtmlLoop lines.length htmlResp (a + 1) n) = none
      rw [if_neg (hfail a)]
      exact ih (a + 1)
  unfold translate_lines
  rw [hloop H 0]
  show translateFallback category lines textResp = _
  unfold translateFallback specProportionalSplit
  by_cases htot : (lines.map (len_hybrid category)).sum = 0
  · rw [if_pos htot, if_pos htot]
  · rw [if_neg htot, if_neg htot]
    congr 1
    unfold splitLengths
    rw [← List.map_dropLast]

theorem translate_lines_proportional_witness :
    translate_lines asciiCategory [['中'], ['中']] 2 (fun _ => none)
        (some "中中中".toList) =
      specProportionalSplit asciiCategory [['中'], ['中']]
        (removesuffix (removesuffix ((some "中中中".toList).getD [])
          "...".toList) "……".toList) :=
  translate_lines_proportional asciiCategory [['中'], ['中']] 2 (fun _ => none)
    (some "中中中".toList) (fun a => by
      show (translateLinesAsHtml none [['中'], ['中']].length).length ≠
        [['中'], ['中']].length
      decide)

/-- One TTS audio line (tts.py TTSLine): duration in seconds, file path,
source text. -/
structure TTSLine where
  duration : ℚ
  path : List Char
  text : List Char
deriving Repr, DecidableEq

/-- One output segment of _adjust_time (tts.py AudioSegment). -/
structure AudioSegment where
  path : List Char
  start : ℚ
  expected_dur : ℚ
  actual_dur : ℚ
deriving Repr, DecidableEq

/-- Default entry rendering Python list indexing; _adjust_time stays within
bounds whenever the flattened TTS result matches the subtitle line count
(the source only logs a warning otherwise). -/
def dfltEntry : SRTEntry := ⟨0, 0, 0, []⟩

def dfltLine : TTSLine := ⟨0, [], []⟩

lemma getD_set_self (l : List ℚ) (i : Nat) (x : ℚ) (h : i < l.length) :
    (l.set i x).getD i 0 = x := by
  simp [List.getD_eq_getElem?_getD, List.getElem?_set_self, h]

lemma getD_set_diff (l : List ℚ) (i j : Nat) (x : ℚ) (h : i ≠ j) :
    (l.set i x).getD j 0 = l.getD j 0 := by
  simp [List.getD_eq_getElem?_getD, List.getElem?_set_ne h]

lemma entry_getD_set_self (l : List SRTEntry) (i : Nat) (x : SRTEntry)
    (h : i < l.length) : (l.set i x).getD i dfltEntry = x := by
  simp [List.getD_eq_getElem?_getD, List.getElem?_set_self, h]

lemma entry_getD_set_diff (l : List SRTEntry) (i j : Nat) (x : SRTEntry)
    (h : i ≠ j) : (l.set i x).getD j dfltEntry = l.getD j dfltEntry := by
  simp [List.getD_eq_getElem?_getD, List.getElem?_set_ne h]

/-- The borrowed amount of _adjust_time: min(-has_time[i], neighbour - 0.1),
keeping a 0.1-second margin on the lending neighbour. -/
def borrowAmount (hcur hnb : ℚ) : ℚ := pyMin (-hcur) (hnb - 1/10)

/-- The borrow-from-previous step of _adjust_time for line i: guarded by the
source's `i > 0 and has_time[i-1] > min_borrow` test; the borrowed amount
moves the shared boundary (this start and the previous end) earlier. -/
def borrowPrev (min_borrow : ℚ) (i : Nat) (st : List ℚ × List SRTEntry) :
    List ℚ × List SRTEntry :=
  if 0 < i ∧ Rat.blt min_borrow (st.1.getD (i - 1) 0) = true then
    ((st.1.set i (st.1.getD i 0 +
        borrowAmount (st.1.getD i 0) (st.1.getD (i - 1) 0))).set (i - 1)
        (st.1.getD (i - 1) 0 -
          borrowAmount (st.1.getD i 0) (st.1.getD (i - 1) 0)),
     (st.2.set i { st.2.getD i dfltEntry with
          start := (st.2.getD i dfltEntry).start -
            borrowAmount (st.1.getD i 0) (st.1.getD (i - 1) 0) }).set (i - 1)
        { st.2.getD (i - 1) dfltEntry with
          endT := (st.2.getD (i - 1) dfltEntry).endT -
            borrowAmount (st.1.getD i 0) (st.1.getD (i - 1) 0) })
  else st

/-- The borrow-from-next step of _adjust_time for line i: guarded by
`i + 1 < len(audios) and has_time[i+1] > min_borrow`; the shared boundary
(this end and the next start) moves later by the borrowed amount. -/
def borrowNext (min_borrow : ℚ) (n i : Nat) (st : List ℚ × List SRTEntry) :
    List ℚ × List SRTEntry :=
  if i + 1 < n ∧ Rat.blt min_borrow (st.1.getD (i + 1) 0) = true then
    ((st.1.set i (st.1.getD i 0 +
        borrowAmount (st.1.getD i 0) (st.1.getD (i + 1) 0))).set (i + 1)
        (st.1.getD (i + 1) 0 -
          borrowAmount (st.1.getD i 0) (st.1.getD (i + 1) 0)),
     (st.2.set i { st.2.getD i dfltEntry with
          endT := (st.2.getD i dfltEntry).endT +
            borrowAmount (st.1.getD i 0) (st.1.getD (i + 1) 0) }).set (i + 1)
        { st.2.getD (i + 1) dfltEntry with
          start := (st.2.getD (i + 1) dfltEntry).start +
            borrowAmount (st.1.getD i 0) (st.1.getD (i + 1) 0) })
  else st

/-- One iteration (line i) of the reconciliation loop of _adjust_time: lines
with nonnegative slack are skipped; otherwise borrow from the previous line,
and, if still negative, from the next. -/
def adjustStep (min_borrow : ℚ) (n i : Nat)
    (st : List ℚ × List SRTEntry) : List ℚ × List SRTEntry :=
  if Rat.blt (st.1.getD i 0) 0 = true then
    let st1 := borrowPrev min_borrow i st
    if Rat.blt (st1.1.getD i 0) 0 = true then borrowNext min_borrow n i st1
    else st1
  else st

/-- The for-loop of _adjust_time over i in range(n), with rem iterations
remaining. -/
def adjustLoop (min_borrow : ℚ) (n : Nat) :
    Nat → Nat → List ℚ × List SRTEntry → List ℚ × List SRTEntry
  | _, 0, st => st
  | i, rem + 1, st =>
    adjustLoop min_borrow n (i + 1) rem (adjustStep min_borrow n i st)

/-- Embeds TTSProcessor._adjust_time: raise min_borrow to at least 0.1,
flatten the per-section TTS lines, make the subtitle timeline contiguous
(fill_time with the default modify_start=False), compute each line's slack
(span minus audio duration), reconcile negative slack by borrowing from the
two neighbours, and emit one AudioSegment per audio line. -/
def _adjust_time (tts_res : List (List TTSLine)) (srt : List SRTEntry)
    (min_borrow : ℚ) : List AudioSegment :=
  let mb := pyMax min_borrow (1/10)
  let audios := tts_res.flatten
  let srt1 := fill_time false srt
  let n := audios.length
  let h0 := (List.range n).map (fun i =>
    (srt1.getD i dfltEntry).endT - (srt1.getD i dfltEntry).start -
      (audios.getD i dfltLine).duration)
  let res := adjustLoop mb n 0 n (h0, srt1)
  audios.enum.map (fun p =>
    { path := p.2.path
      start := (res.2.getD p.1 dfltEntry).start
      expected_dur := (res.2.getD p.1 dfltEntry).endT -
        (res.2.getD p.1 dfltEntry).start
      actual_dur := p.2.duration })

/-- Reconciliation invariant of _adjust_time: both lists keep length n,
every line's slack stays at least min(its initial slack, 0.1), and the
slack list stays synchronized with the timeline spans minus the audio
durations. -/
def adjInv (audios : List TTSLine) (h0 : List ℚ) (n : Nat)
    (st : List ℚ × List SRTEntry) : Prop :=
  st.1.length = n ∧ st.2.length = n ∧
  (∀ j, j < n → min (h0.getD j 0) (1/10) ≤ st.1.getD j 0) ∧
  (∀ j, j < n → st.1.getD j 0 =
    (st.2.getD j dfltEntry).endT - (st.2.getD j dfltEntry).start -
      (audios.getD j dfltLine).duration)

lemma borrowAmount_nonneg (hcur hnb : ℚ) (h1 : hcur < 0) (h2 : 1/10 ≤ hnb) :
    0 ≤ borrowAmount hcur hnb := by
  rw [borrowAmount, pyMin_eq_min]
  exact le_min (by linarith) (by linarith)

lemma borrowAmount_le (hcur hnb : ℚ) : borrowAmount hcur hnb ≤ hnb - 1/10 :=
  pyMin_le_right _ _

lemma borrowPrev_inv (audios : List TTSLine) (h0 : List ℚ) (n : Nat)
    (mb : ℚ) (hmb : 1/10 ≤ mb) (i : Nat) (st : List ℚ × List SRTEntry)
    (hinv : adjInv audios h0 n st) (hi : i < n)
    (hneg : st.1.getD i 0 < 0) :
    adjInv audios h0 n (borrowPrev mb i st) := by
  obtain ⟨hl1, hl2, hmin, hsync⟩ := hinv
  unfold borrowPrev
  by_cases hg : 0 < i ∧ Rat.blt mb (st.1.getD (i - 1) 0) = true
  · rw [if_pos hg]
    obtain ⟨hi0, hblt⟩ := hg
    have hprev : mb < st.1.getD (i - 1) 0 := (rat_blt_iff _ _).mp hblt
    have hb0 : 0 ≤ borrowAmount (st.1.getD i 0) (st.1.getD (i - 1) 0) :=
      borrowAmount_nonneg _ _ hneg (by linarith)
    have hble : borrowAmount (st.1.getD i 0) (st.1.getD (i - 1) 0) ≤
        st.1.getD (i - 1) 0 - 1/10 := borrowAmount_le _ _
    have hii : i - 1 ≠ i := by omega
    refine ⟨by simp [List.length_set, hl1], by simp [List.length_set, hl2],
      ?_, ?_⟩
    · intro j hj
      rcases eq_or_ne (i - 1) j with rfl | hj1
      · rw [getD_set_self _ _ _ (by rw [List.length_set, hl1]; omega)]
        have hm : min (h0.getD (i - 1) 0) (1/10) ≤ 1/10 := min_le_right _ _
        linarith
      · rw [getD_set_diff _ _ _ _ hj1]
        rcases eq_or_ne i j with rfl | hj2
        · rw [getD_set_self _ _ _ (by rw [hl1]; omega)]
          have := hmin i hj
          linarith
        · rw [getD_set_diff _ _ _ _ hj2]
          exact hmin j hj
    · intro j hj
      rcases eq_or_ne (i - 1) j with rfl | hj1
      · rw [getD_set_self _ _ _ (by rw [List.length_set, hl1]; omega),
          entry_getD_set_self _ _ _ (by rw [List.length_set, hl2]; omega)]
        have hs := hsync (i - 1) (by omega)
        show st.1.getD (i - 1) 0 -
            borrowAmount (st.1.getD i 0) (st.1.getD (i - 1) 0) =
          (st.2.getD (i - 1) dfltEntry).endT -
              borrowAmount (st.1.getD i 0) (st.1.getD (i - 1) 0) -
            (st.2.getD (i - 1) dfltEntry).start -
            (audios.getD (i - 1) dfltLine).duration
        rw [hs]
        ring
      · rw [getD_set_diff _ _ _ _ hj1,
          entry_getD_set_diff _ _ _ _ hj1]
        rcases eq_or_ne i j with rfl | hj2
        · rw [getD_set_self _ _ _ (by rw [hl1]; omega),
            entry_getD_set_self _ _ _ (by rw [hl2]; omega)]
          have hs := hsync i hj
          show st.1.getD i 0 +
              borrowAmount (st.1.getD i 0) (st.1.getD (i - 1) 0) =
            (st.2.getD i dfltEntry).endT -
              ((st.2.getD i dfltEntry).start -
                borrowAmount (st.1.getD i 0) (st.1.getD (i - 1) 0)) -
              (audios.getD i dfltLine).duration
          rw [hs]
          ring
        · rw [getD_set_diff _ _ _ _ hj2,
            entry_getD_set_diff _ _ _ _ hj2]
          exact hsync j hj
  · rw [if_neg hg]
    exact ⟨hl1, hl2, hmin, hsync⟩

lemma borrowNext_inv (audios : List TTSLine) (h0 : List ℚ) (n : Nat)
    (mb : ℚ) (hmb : 1/10 ≤ mb) (i : Nat) (st : List ℚ × List SRTEntry)
    (hinv : adjInv audios h0 n st) (_hi : i < n)
    (hneg : st.1.getD i 0 < 0) :
    adjInv audios h0 n (borrowNext mb n i st) := by
  obtain ⟨hl1, hl2, hmin, hsync⟩ := hinv
  unfold borrowNext
  by_cases hg : i + 1 < n ∧ Rat.blt mb (st.1.getD (i + 1) 0) = true
  · rw [if_pos hg]
    obtain ⟨hi1, hblt⟩ := hg
    have hnext : mb < st.1.getD (i + 1) 0 := (rat_blt_iff _ _).mp hblt
    have hb0 : 0 ≤ borrowAmount (st.1.getD i 0) (st.1.getD (i + 1) 0) :=
      borrowAmount_nonneg _ _ hneg (by linarith)
    have hble : borrowAmount (st.1.getD i 0) (st.1.getD (i + 1) 0) ≤
        st.1.getD (i + 1) 0 - 1/10 := borrowAmount_le _ _
    have hii : i + 1 ≠ i := by omega
    refine ⟨by simp [List.length_set, hl1], by simp [List.length_set, hl2],
      ?_, ?_⟩
    · intro j hj
      rcases eq_or_ne (i + 1) j with rfl | hj1
      · rw [getD_set_self _ _ _ (by rw [List.length_set, hl1]; omega)]
        have hm : min (h0.getD (i + 1) 0) (1/10) ≤ 1/10 := min_le_right _ _
        linarith
      · rw [getD_set_diff _ _ _ _ hj1]
        rcases eq_or_ne i j with rfl | hj2
        · rw [getD_set_self _ _ _ (by rw [hl1]; omega)]
          have := hmin i hj
          linarith
        · rw [getD_set_diff _ _ _ _ hj2]
          exact hmin j hj
    · intro j hj
      rcases eq_or_ne (i + 1) j with rfl | hj1
      · rw [getD_set_self _ _ _ (by rw [List.length_set, hl1]; omega),
          entry_getD_set_self _ _ _ (by rw [List.length_set, hl2]; omega)]
        have hs := hsync (i + 1) (by omega)
        show st.1.getD (i + 1) 0 -
            borrowAmount (st.1.getD i 0) (st.1.getD (i + 1) 0) =
          (st.2.getD (i + 1) dfltEntry).endT -
            ((st.2.getD (i + 1) dfltEntry).start +
              borrowAmount (st.1.getD i 0) (st.1.getD (i + 1) 0)) -
            (audios.getD (i + 1) dfltLine).duration
        rw [hs]
        ring
      · rw [getD_set_diff _ _ _ _ hj1,
          entry_getD_set_diff _ _ _ _ hj1]
        rcases eq_or_ne i j with rfl | hj2
        · rw [getD_set_self _ _ _ (by rw [hl1]; omega),
            entry_getD_set_self _ _ _ (by rw [hl2]; omega)]
          have hs := hsync i hj
          show st.1.getD i 0 +
              borrowAmount (st.1.getD i 0) (st.1.getD (i + 1) 0) =
            (st.2.getD i dfltEntry).endT +
              borrowAmount (st.1.getD i 0) (st.1.getD (i + 1) 0) -
              (st.2.getD i dfltEntry).start -
              (audios.getD i dfltLine).duration
          rw [hs]
          ring
        · rw [getD_set_diff _ _ _ _ hj2,
            entry_getD_set_diff _ _ _ _ hj2]
          exact hsync j hj
  · rw [if_neg hg]
    exact ⟨hl1, hl2, hmin, hsync⟩

lemma adjustStep_inv (audios : List TTSLine) (h0 : List ℚ) (n : Nat)
    (mb : ℚ) (hmb : 1/10 ≤ mb) (i : Nat) (st : List ℚ × List SRTEntry)
    (hinv : adjInv audios h0 n st) (hi : i < n) :
    adjInv audios h0 n (adjustStep mb n i st) := by
  unfold adjustStep
  by_cases h1 : Rat.blt (st.1.getD i 0) 0 = true
  · rw [if_pos h1]
    have hneg : st.1.getD i 0 < 0 := (rat_blt_iff _ _).mp h1
    have hinv1 := borrowPrev_inv audios h0 n mb hmb i st hinv hi hneg
    by_cases h2 : Rat.blt ((borrowPrev mb i st).1.getD i 0) 0 = true
    · rw [if_pos h2]
      exact borrowNext_inv audios h0 n mb hmb i _ hinv1 hi
        ((rat_blt_iff _ _).mp h2)
    · rw [if_neg h2]
      exact hinv1
  · rw [if_neg h1]
    exact hinv

lemma adjustLoop_inv (audios : List TTSLine) (h0 : List ℚ) (n : Nat)
    (mb : ℚ) (hmb : 1/10 ≤ mb) :
    ∀ (rem i : Nat) (st : List ℚ × List SRTEntry), i + rem ≤ n →
      adjInv audios h0 n st → adjInv audios h0 n (adjustLoop mb n i rem st)
  | 0, _, _, _, hinv => hinv
  | rem + 1, i, st, hle, hinv => by
    show adjInv audios h0 n
      (adjustLoop mb n (i + 1) rem (adjustStep mb n i st))
    exact adjustLoop_inv audios h0 n mb hmb rem (i + 1) _ (by omega)
      (adjustStep_inv audios h0 n mb hmb i st hinv (by omega))

lemma fill_time_length (ms : Bool) (es : List SRTEntry) :
    (fill_time ms es).length = es.length := by
  have h : (fill_time ms es).map (fun e => (e.index, e.text)) =
      es.map (fun e => (e.index, e.text)) := by
    cases es with
    | nil => rfl
    | cons e rest => exact fillTimeGo_frame ms rest e
  have h2 := congrArg List.length h
  simpa using h2

lemma getD_range_map (f : Nat → ℚ) (n j : Nat) (hj : j < n) :
    ((List.range n).map f).getD j 0 = f j := by
  simp [List.getD_eq_getElem?_getD, List.getElem?_map, List.getElem?_range hj]

def dfltSeg : AudioSegment := ⟨[], 0, 0, 0⟩

lemma getD_enum_map (audios : List TTSLine)
    (g : Nat × TTSLine → AudioSegment) (i : Nat) (hi : i < audios.length) :
    (audios.enum.map g).getD i dfltSeg = g (i, audios.getD i dfltLine) := by
  simp [List.getD_eq_getElem?_getD, List.getElem?_map, List.getElem?_enum,
    List.getElem?_eq_getElem hi]

/-- C6: the reconciliation of _adjust_time never drives any line's slack
(expected span minus audio duration) below min(its initial slack, 0.1):
every borrow is guarded by neighbourSlack > max(min_borrow, 0.1) and bounded
by min(-slack_i, neighbourSlack - 0.1), so a lending neighbour — whose slack
exceeded 0.1 when it lent — always retains the 0.1-unit safety margin. -/
theorem adjust_time_borrow_margin (tts_res : List (List TTSLine))
    (srt : List SRTEntry) (min_borrow : ℚ) (i : Nat)
    (hi : i < tts_res.flatten.length)
    (hlen : tts_res.flatten.length = srt.length) :
    min (((fill_time false srt).getD i dfltEntry).endT -
        ((fill_time false srt).getD i dfltEntry).start -
        (tts_res.flatten.getD i dfltLine).duration) (1/10) ≤
      ((_adjust_time tts_res srt min_borrow).getD i dfltSeg).expected_dur -
        ((_adjust_time tts_res srt min_borrow).getD i dfltSeg).actual_dur := by
  have hmb : 1/10 ≤ pyMax min_borrow (1/10) := by
    rw [pyMax_eq_max]
    exact le_max_right _ _
  set audios := tts_res.flatten with haud
  set n := audios.length with hn
  set srt1 := fill_time false srt with hsrt1
  set h0 := (List.range n).map (fun k =>
    (srt1.getD k dfltEntry).endT - (srt1.getD k dfltEntry).start -
      (audios.getD k dfltLine).duration) with hh0
  have hinv0 : adjInv audios h0 n (h0, srt1) := by
    refine ⟨by rw [hh0]; simp, ?_, ?_, ?_⟩
    · show srt1.length = n
      rw [hsrt1, fill_time_length]
      omega
    · intro j hj
      show min (h0.getD j 0) (1/10) ≤ h0.getD j 0
      rw [hh0, getD_range_map _ _ _ hj]
      exact min_le_left _ _
    · intro j hj
      show h0.getD j 0 = _
      rw [hh0, getD_range_map _ _ _ hj]
  have hfin := adjustLoop_inv audios h0 n (pyMax min_borrow (1/10)) hmb
    n 0 (h0, srt1) (by omega) hinv0
  obtain ⟨hf1, hf2, hfmin, hfsync⟩ := hfin
  have hunfold : _adjust_time tts_res srt min_borrow =
      audios.enum.map (fun p =>
        { path := p.2.path
          start := ((adjustLoop (pyMax min_borrow (1/10)) n 0 n
            (h0, srt1)).2.getD p.1 dfltEntry).start
          expected_dur := ((adjustLoop (pyMax min_borrow (1/10)) n 0 n
            (h0, srt1)).2.getD p.1 dfltEntry).endT -
            ((adjustLoop (pyMax min_borrow (1/10)) n 0 n
              (h0, srt1)).2.getD p.1 dfltEntry).start
          actual_dur := p.2.duration }) := rfl
  rw [hunfold, getD_enum_map audios _ i (by omega)]
  show min ((srt1.getD i dfltEntry).endT - (srt1.getD i dfltEntry).start -
      (audios.getD i dfltLine).duration) (1/10) ≤
    ((adjustLoop (pyMax min_borrow (1/10)) n 0 n (h0, srt1)).2.getD i
        dfltEntry).endT -
      ((adjustLoop (pyMax min_borrow (1/10)) n 0 n (h0, srt1)).2.getD i
        dfltEntry).start -
      (audios.getD i dfltLine).duration
  rw [← hfsync i (by omega)]
  have hE : h0.getD i 0 =
      (srt1.getD i dfltEntry).endT - (srt1.getD i dfltEntry).start -
        (audios.getD i dfltLine).duration := by
    rw [hh0, getD_range_map _ _ _ (by omega)]
  rw [← hE]
  exact hfmin i (by omega)

theorem adjust_time_borrow_margin_witness :
    min (((fill_time false [(⟨1, 0, 2, []⟩ : SRTEntry)]).getD 0
          dfltEntry).endT -
        ((fill_time false [(⟨1, 0, 2, []⟩ : SRTEntry)]).getD 0
          dfltEntry).start -
        (([[(⟨1, [], []⟩ : TTSLine)]].flatten).getD 0 dfltLine).duration)
      (1/10) ≤
      ((_adjust_time [[(⟨1, [], []⟩ : TTSLine)]] [(⟨1, 0, 2, []⟩ : SRTEntry)]
          1).getD 0 dfltSeg).expected_dur -
      ((_adjust_time [[(⟨1, [], []⟩ : TTSLine)]] [(⟨1, 0, 2, []⟩ : SRTEntry)]
          1).getD 0 dfltSeg).actual_dur :=
  adjust_time_borrow_margin [[⟨1, [], []⟩]] [⟨1, 0, 2, []⟩] 1 0
    (by decide) (by decide)

/-- Modelled from the spec: the cutting loop of splitWithRef — one piece per
stored length via hybridSlice (sub_hybrid), the remainder (any leftover
text after the last matched window) going to the last piece; unlike the
translate fallback the pieces are subtitle texts and are not stripped. -/
def splitRefLoop (category : Char → String) :
    List Nat → List Char → Option (List (List Char))
  | [], full => some [full]
  | l :: ls, full =>
    match sub_hybrid category full 0 (some (l : Int)) with
    | none => none
    | some piece =>
      match sub_hybrid category full (l : Int) none with
      | none => none
      | some rest =>
        match splitRefLoop category ls rest with
        | none => none
        | some out => some (piece :: out)

/-- Modelled from the spec: splitWithRef redistributes an entry's text
across the reference windows, apportioning hybrid length to each window in
proportion to its duration share of the entry's duration (the spec fixes no
rounding; truncation is used as in the sibling proportional split), cutting
with hybridSlice, the leftover appended to the last piece, and the produced
timestamps taken exactly from the reference windows. -/
def split_with_ref (category : Char → String) (e : SRTEntry)
    (ref : List SRTEntry) : Option (List SRTEntry) :=
  let H := len_hybrid category e.text
  let D := e.endT - e.start
  let cuts := (ref.map (fun u =>
    (⌊(H : ℚ) * ((u.endT - u.start) / D)⌋).toNat)).dropLast
  match splitRefLoop category cuts e.text with
  | none => none
  | some pieces =>
    some ((ref.zip pieces).map (fun p =>
      ⟨e.index, p.1.start, p.1.endT, p.2⟩))

/-- splitRefLoop returns one piece per stored length plus the remainder,
conserving hybrid length, provided the lengths sum below the hybrid length
of the text (or are all zero). -/
lemma splitRefLoop_some (category : Char → String) : ∀ (ls : List Nat)
    (s : List Char),
    (ls.sum < lenHybridAux category false s ∨ ∀ l ∈ ls, l = 0) →
    ∃ out, splitRefLoop category ls s = some out ∧
      out.length = ls.length + 1 ∧
      (out.map (lenHybridAux category false)).sum =
        lenHybridAux category false s
  | [], s, _ => ⟨[s], rfl, rfl, by simp⟩
  | l :: ls, s, hcond => by
    have hcut : ∃ p, sub_hybrid category s 0 (some (l : Int)) = some p := by
      cases hc : sub_hybrid category s 0 (some (l : Int)) with
      | some p => exact ⟨p, rfl⟩
      | none =>
        have hcr := sub_hybrid_cut_crash category s l hc
        rcases hcond with hlt | hzero
        · rw [List.sum_cons] at hlt
          omega
        · have hl0 : l = 0 := hzero l (List.mem_cons_self _ _)
          subst hl0
          rcases Nat.eq_zero_or_pos s.length with hn | hn
          · rw [List.length_eq_zero.mp hn] at hc
            rw [sub_hybrid_of_start_ge category [] 0 _
              (by rw [pyNormIdx_nonneg _ _ le_rfl]; simp)] at hc
            exact Option.noConfusion hc
          · rw [Nat.cast_zero, sub_hybrid_zero_stop_zero category s hn] at hc
            exact Option.noConfusion hc
    obtain ⟨p, hp⟩ := hcut
    obtain ⟨r, hr, hsum, hple⟩ := sub_hybrid_cut_conservation category s l p hp
    have hnext : ls.sum < lenHybridAux category false r ∨ ∀ x ∈ ls, x = 0 := by
      rcases hcond with hlt | hzero
      · left
        rw [List.sum_cons] at hlt
        omega
      · right
        exact fun x hx => hzero x (List.mem_cons_of_mem _ hx)
    obtain ⟨out, hout, hlen, hosum⟩ := splitRefLoop_some category ls r hnext
    refine ⟨p :: out, ?_, ?_, ?_⟩
    · show (match sub_hybrid category s 0 (some (l : Int)) with
        | none => none
        | some piece =>
          match sub_hybrid category s (l : Int) none with
          | none => none
          | some rest =>
            match splitRefLoop category ls rest with
            | none => none
            | some out => some (piece :: out)) =
        some (p :: out)
      rw [hp, hr]
      show (match splitRefLoop category ls r with
        | none => none
        | some out => some (p :: out)) = some (p :: out)
      rw [hout]
    · simp only [List.length_cons, hlen]
    · simp only [List.map_cons, List.sum_cons, hosum]
      omega

lemma toNat_floor_le_self (x : ℚ) (hx : 0 ≤ x) :
    ((⌊x⌋.toNat : Nat) : ℚ) ≤ x := by
  have h1 : ((⌊x⌋.toNat : ℤ) : ℚ) = ((⌊x⌋ : ℤ) : ℚ) := by
    rw [Int.toNat_of_nonneg (Int.floor_nonneg.mpr hx)]
  have h2 : ((⌊x⌋.toNat : Nat) : ℚ) = ((⌊x⌋.toNat : ℤ) : ℚ) := by
    push_cast
    ring
  rw [h2, h1]
  exact Int.floor_le x

/-- Telescoping: over a time-contiguous reference list, the window durations
sum to last end minus first start. -/
lemma chain_sum_spans : ∀ (ref : List SRTEntry) (w z : SRTEntry),
    ref.head? = some w → ref.getLast? = some z →
    List.Chain' (fun a b => a.endT = b.start) ref →
    (ref.map (fun u => u.endT - u.start)).sum = z.endT - w.start
  | [], w, z, hw, _, _ => by exact Option.noConfusion hw
  | [u], w, z, hw, hz, _ => by
    rw [show ([u] : List SRTEntry).head? = some u from rfl,
      Option.some.injEq] at hw
    rw [show ([u] : List SRTEntry).getLast? = some u from rfl,
      Option.some.injEq] at hz
    subst hw
    subst hz
    simp
  | u1 :: u2 :: t, w, z, hw, hz, hchain => by
    rw [show (u1 :: u2 :: t).head? = some u1 from rfl,
      Option.some.injEq] at hw
    subst hw
    rw [List.getLast?_cons_cons] at hz
    have hc1 : u1.endT = u2.start ∧
        List.Chain' (fun a b => a.endT = b.start) (u2 :: t) :=
      List.chain'_cons.mp hchain
    have ih := chain_sum_spans (u2 :: t) u2 z rfl hz hc1.2
    simp only [List.map_cons, List.sum_cons] at ih ⊢
    rw [ih, ← hc1.1]
    ring

lemma zip_map_snd_eq {α β γ : Type} (f : α × β → γ) (g : β → γ)
    (hfg : ∀ a b, f (a, b) = g b) : ∀ (as : List α) (bs : List β),
    as.length = bs.length → (as.zip bs).map f = bs.map g
  | [], [], _ => rfl
  | [], _ :: _, h => by simp at h
  | _ :: _, [], h => by simp at h
  | a :: as, b :: bs, h => by
    simp only [List.zip_cons_cons, List.map_cons, hfg]
    rw [zip_map_snd_eq f g hfg as bs (by simpa using h)]

lemma zip_map_fst_eq {α β γ : Type} (f : α × β → γ) (g : α → γ)
    (hfg : ∀ a b, f (a, b) = g a) : ∀ (as : List α) (bs : List β),
    as.length = bs.length → (as.zip bs).map f = as.map g
  | [], [], _ => rfl
  | [], _ :: _, h => by simp at h
  | _ :: _, [], h => by simp at h
  | a :: as, b :: bs, h => by
    simp only [List.zip_cons_cons, List.map_cons, hfg]
    rw [zip_map_fst_eq f g hfg as bs (by simpa using h)]

/-- The stored reference cuts sum strictly below the text's hybrid length
(or are all zero): the last window's positive duration share is never
stored. -/
lemma refCuts_cond (category : Char → String) (e : SRTEntry)
    (ref : List SRTEntry) (hne : ref ≠ [])
    (hpos : ∀ u ∈ ref, u.start < u.endT)
    (hD : (ref.map (fun u => u.endT - u.start)).sum = e.endT - e.start) :
    ((ref.map (fun u =>
        (⌊(len_hybrid category e.text : ℚ) *
          ((u.endT - u.start) / (e.endT - e.start))⌋).toNat)).dropLast).sum <
      lenHybridAux category false e.text ∨
    ∀ l ∈ (ref.map (fun u =>
        (⌊(len_hybrid category e.text : ℚ) *
          ((u.endT - u.start) / (e.endT - e.start))⌋).toNat)).dropLast,
      l = 0 := by
  have hD0 : 0 < e.endT - e.start := by
    rw [← hD]
    obtain ⟨u, t, heq⟩ := List.exists_cons_of_ne_nil hne
    rw [heq, List.map_cons, List.sum_cons]
    have h1 : 0 < u.endT - u.start := by
      have := hpos u (by rw [heq]; exact List.mem_cons_self _ _)
      linarith
    have h2 : 0 ≤ (t.map (fun u => u.endT - u.start)).sum := by
      refine List.sum_nonneg ?_
      intro x hx
      obtain ⟨v, hv, hvx⟩ := List.mem_map.mp hx
      have := hpos v (by rw [heq]; exact List.mem_cons_of_mem _ hv)
      rw [← hvx]
      linarith
    linarith
  rcases Nat.eq_zero_or_pos (len_hybrid category e.text) with hH | hH
  · right
    intro l hl
    have hl2 := List.dropLast_subset _ hl
    obtain ⟨u, hu, hval⟩ := List.mem_map.mp hl2
    rw [hH] at hval
    simp only [Nat.cast_zero, zero_mul, Int.floor_zero, Int.toNat_zero]
      at hval
    omega
  · left
    have hdec := List.dropLast_append_getLast hne
    have hdlast : 0 < (ref.getLast hne).endT - (ref.getLast hne).start := by
      have := hpos _ (List.getLast_mem hne)
      linarith
    rw [← List.map_dropLast]
    have hsumd : (ref.dropLast.map (fun u => u.endT - u.start)).sum =
        (e.endT - e.start) -
          ((ref.getLast hne).endT - (ref.getLast hne).start) := by
      have h1 : (ref.map (fun u => u.endT - u.start)).sum =
          (ref.dropLast.map (fun u => u.endT - u.start)).sum +
            ((ref.getLast hne).endT - (ref.getLast hne).start) := by
        conv_lhs => rw [← hdec]
        rw [List.map_append, List.sum_append]
        simp
      rw [h1] at hD
      linarith
    have hcast : (((ref.dropLast.map (fun u =>
        (⌊(len_hybrid category e.text : ℚ) *
          ((u.endT - u.start) / (e.endT - e.start))⌋).toNat)).sum : Nat) :
          ℚ) ≤
        ((len_hybrid category e.text : ℚ) / (e.endT - e.start)) *
          (ref.dropLast.map (fun u => u.endT - u.start)).sum := by
      rw [Nat.cast_list_sum, List.map_map]
      refine le_trans (List.sum_le_sum ?_)
        (le_of_eq (List.sum_map_mul_left _ _ _))
      intro u hu
      have hu' : u ∈ ref := List.dropLast_subset _ hu
      have hd : 0 < u.endT - u.start := by
        have := hpos u hu'
        linarith
      show ((((⌊(len_hybrid category e.text : ℚ) *
          ((u.endT - u.start) / (e.endT - e.start))⌋).toNat : Nat)) : ℚ) ≤
        (len_hybrid category e.text : ℚ) / (e.endT - e.start) *
          (u.endT - u.start)
      have h1 := toNat_floor_le_self
        ((len_hybrid category e.text : ℚ) *
          ((u.endT - u.start) / (e.endT - e.start)))
        (by
          apply mul_nonneg
          · positivity
          · apply div_nonneg <;> linarith)
      calc ((((⌊(len_hybrid category e.text : ℚ) *
            ((u.endT - u.start) / (e.endT - e.start))⌋).toNat : Nat)) : ℚ) ≤
          (len_hybrid category e.text : ℚ) *
            ((u.endT - u.start) / (e.endT - e.start)) := h1
        _ = (len_hybrid category e.text : ℚ) / (e.endT - e.start) *
            (u.endT - u.start) := by ring
    have hfinal : ((len_hybrid category e.text : ℚ) / (e.endT - e.start)) *
        (ref.dropLast.map (fun u => u.endT - u.start)).sum <
        (len_hybrid category e.text : ℚ) := by
      rw [hsumd, mul_sub]
      have hHD : (len_hybrid category e.text : ℚ) / (e.endT - e.start) *
          (e.endT - e.start) = (len_hybrid category e.text : ℚ) :=
        div_mul_cancel₀ _ (ne_of_gt hD0)
      rw [hHD]
      have hpos2 : 0 < (len_hybrid category e.text : ℚ) /
          (e.endT - e.start) *
          ((ref.getLast hne).endT - (ref.getLast hne).start) := by
        apply mul_pos
        · apply div_pos
          · exact_mod_cast hH
          · exact hD0
        · exact hdlast
      linarith
    have hlt := lt_of_le_of_lt hcast hfinal
    rw [← len_hybrid_eq_aux]
    exact_mod_cast hlt

/-- C5 (modelled from the spec; split_with_ref is absent from the source
tree, though cli.py calls it and tests/test_srt.py exercises it): for a
source entry and a reference timeline of positive-duration windows that
partition its span, split_with_ref returns one piece per window, the
pieces' hybrid lengths sum to the entry's, and the produced timestamps
equal the reference windows exactly. -/
theorem split_with_ref_round_trip (category : Char → String) (e : SRTEntry)
    (ref : List SRTEntry) (w z : SRTEntry)
    (hw : ref.head? = some w) (hz : ref.getLast? = some z)
    (hws : w.start = e.start) (hze : z.endT = e.endT)
    (hpos : ∀ u ∈ ref, u.start < u.endT)
    (hchain : List.Chain' (fun a b => a.endT = b.start) ref) :
    ∃ out, split_with_ref category e ref = some out ∧
      (out.map (fun u => len_hybrid category u.text)).sum =
        len_hybrid category e.text ∧
      out.map (fun u => (u.start, u.endT)) =
        ref.map (fun u => (u.start, u.endT)) := by
  have hne : ref ≠ [] := by
    intro h
    rw [h] at hw
    exact Option.noConfusion hw
  have hD := chain_sum_spans ref w z hw hz hchain
  rw [hws, hze] at hD
  have hcond := refCuts_cond category e ref hne hpos hD
  obtain ⟨pieces, hpieces, hplen, hpsum⟩ :=
    splitRefLoop_some category _ _ hcond
  have hcutlen : ((ref.map (fun u =>
      (⌊(len_hybrid category e.text : ℚ) *
        ((u.endT - u.start) / (e.endT - e.start))⌋).toNat)).dropLast).length
      = ref.length - 1 := by
    rw [List.length_dropLast, List.length_map]
  have hrefpos : 0 < ref.length := List.length_pos.mpr hne
  have hlen2 : ref.length = pieces.length := by omega
  refine ⟨(ref.zip pieces).map (fun p =>
    ⟨e.index, p.1.start, p.1.endT, p.2⟩), ?_, ?_, ?_⟩
  · show (match splitRefLoop category
        ((ref.map (fun u =>
          (⌊(len_hybrid category e.text : ℚ) *
            ((u.endT - u.start) / (e.endT - e.start))⌋).toNat)).dropLast)
        e.text with
      | none => none
      | some pieces =>
        some ((ref.zip pieces).map (fun p =>
          (⟨e.index, p.1.start, p.1.endT, p.2⟩ : SRTEntry)))) =
      some ((ref.zip pieces).map (fun p =>
        (⟨e.index, p.1.start, p.1.endT, p.2⟩ : SRTEntry)))
    rw [hpieces]
  · rw [List.map_map]
    have he1 : (ref.zip pieces).map ((fun u => len_hybrid category u.text) ∘
        (fun p => (⟨e.index, p.1.start, p.1.endT, p.2⟩ : SRTEntry))) =
        pieces.map (len_hybrid category) :=
      zip_map_snd_eq _ _ (fun a b => rfl) ref pieces hlen2
    rw [he1]
    have he2 : pieces.map (len_hybrid category) =
        pieces.map (lenHybridAux category false) :=
      List.map_congr_left (fun x _ => len_hybrid_eq_aux category x)
    rw [he2, hpsum, ← len_hybrid_eq_aux]
  · rw [List.map_map]
    exact zip_map_fst_eq _ _ (fun a b => rfl) ref pieces hlen2

theorem split_with_ref_round_trip_witness :
    ∃ out, split_with_ref asciiCategory
        (⟨1, 0, 2, "中中".toList⟩ : SRTEntry)
        [(⟨1, 0, 1, []⟩ : SRTEntry), (⟨2, 1, 2, []⟩ : SRTEntry)] =
        some out ∧
      (out.map (fun u => len_hybrid asciiCategory u.text)).sum =
        len_hybrid asciiCategory
          (SRTEntry.text ⟨1, 0, 2, "中中".toList⟩) ∧
      out.map (fun u => (u.start, u.endT)) =
        [(⟨1, 0, 1, []⟩ : SRTEntry), (⟨2, 1, 2, []⟩ : SRTEntry)].map
          (fun u => (u.start, u.endT)) :=
  split_with_ref_round_trip asciiCategory ⟨1, 0, 2, "中中".toList⟩
    [⟨1, 0, 1, []⟩, ⟨2, 1, 2, []⟩] ⟨1, 0, 1, []⟩ ⟨2, 1, 2, []⟩
    rfl rfl rfl rfl (by decide)
    (List.chain'_cons.mpr ⟨by decide, List.chain'_singleton _⟩)
